import Mathlib

/-
Verification of the diff-anchored review pipeline of korsour/ai-codereviewer.

The repository's pipeline lives in `src/main.ts` (the current version, with the
configurable batching/retry delivery scheduler) and in three near-duplicate
historical variants of the same file.  The TypeScript code is shallowly
embedded here:

* JavaScript runtime values that flow through the pipeline (results of
  `JSON.parse`, elements of the model's `reviews` array, ...) are modelled by
  `JSValue`; `undefined` and JS property access, truthiness, strict equality
  and `Number(...)` coercion are modelled explicitly.  JS numbers are modelled
  by decimal rationals `JSNum` (mantissa over a power of ten, which is exact
  for every decimal numeral), and `NaN` by the `none` of `Option JSNum` at
  coercion results.  Exotic coercions (hex strings, `Infinity`, nested
  array-to-string) are out of scope of the model and map to `NaN`.
* `JSON.parse` is modelled by an executable fuel-based parser `parseJSON`
  (strings, numbers, booleans, null, arrays, objects, standard escapes).  It
  is slightly more lenient than the JS grammar on number literals (it accepts
  leading zeros and a trailing dot); no theorem depends on those corner
  inputs.
* Code that can throw (`x.y` on `null`/`undefined`, `Array.prototype.flatMap`
  on a non-array, `String.prototype.replace` on a non-string, unreadable event
  payloads) returns `Except Unit _`; the `try`/`catch` blocks of the source
  turn `.error` into the source's fallback values.
* The network collaborators (Octokit, OpenAI, the `parse-diff` tokenizer and
  `minimatch`) are external per the design document; they enter as oracle
  functions/fields of an environment record, and delivery and pipeline
  behaviour is captured as explicit event traces.
-/

namespace AICodeReview

/-! ## Decimal numbers (model of the JS numbers that occur here) -/

/-- A decimal rational `m / 10 ^ s`.  Every numeric literal a JS review
pipeline meets (line numbers, batch sizes, model-emitted numbers) is decimal,
so this represents them exactly, and all of its operations are structural
arithmetic that the kernel can evaluate. -/
structure JSNum where
  m : Int
  s : Nat
deriving DecidableEq

namespace JSNum

/-- Embed an integer. -/
def ofInt (n : Int) : JSNum := ⟨n, 0⟩

/-- Embed a natural number. -/
def ofNat (n : Nat) : JSNum := ⟨(n : Int), 0⟩

/-- Value equality (the `===` of two JS numbers): `a.m / 10^a.s = b.m / 10^b.s`
by cross multiplication. -/
def eqb (a b : JSNum) : Bool := a.m * (10 : Int) ^ b.s == b.m * (10 : Int) ^ a.s

/-- Value order `a < b`. -/
def ltb (a b : JSNum) : Bool := decide (a.m * (10 : Int) ^ b.s < b.m * (10 : Int) ^ a.s)

/-- Addition (scale to the larger denominator). -/
def add (a b : JSNum) : JSNum :=
  ⟨a.m * (10 : Int) ^ (max a.s b.s - a.s) + b.m * (10 : Int) ^ (max a.s b.s - b.s), max a.s b.s⟩

/-- Is the value zero? -/
def isZero (a : JSNum) : Bool := a.m == 0

/-- Truncation toward zero (JS `ToIntegerOrInfinity` on a finite value). -/
def trunc (a : JSNum) : Int :=
  if 0 ≤ a.m then Int.ofNat (a.m.toNat / 10 ^ a.s)
  else - Int.ofNat ((- a.m).toNat / 10 ^ a.s)

end JSNum

/-! ## JavaScript value model -/

/-- Model of a JavaScript runtime value as it occurs in this pipeline.
`num none` is `NaN`. -/
inductive JSValue where
  | undefined : JSValue
  | null : JSValue
  | bool (b : Bool) : JSValue
  | num (q : Option JSNum) : JSValue
  | str (s : String) : JSValue
  | arr (elems : List JSValue) : JSValue
  | obj (fields : List (String × JSValue)) : JSValue

mutual

/-- Boolean equality on `JSValue` (the derive handler does not support the
nested lists, so it is spelled out). -/
def beqVal : JSValue → JSValue → Bool
  | .undefined, .undefined => true
  | .null, .null => true
  | .bool a, .bool b => a == b
  | .num a, .num b => a == b
  | .str a, .str b => a == b
  | .arr xs, .arr ys => beqValList xs ys
  | .obj fs, .obj gs => beqValFields fs gs
  | _, _ => false

/-- Boolean equality on lists of `JSValue`. -/
def beqValList : List JSValue → List JSValue → Bool
  | [], [] => true
  | x :: xs, y :: ys => beqVal x y && beqValList xs ys
  | _, _ => false

/-- Boolean equality on object field lists. -/
def beqValFields : List (String × JSValue) → List (String × JSValue) → Bool
  | [], [] => true
  | (k1, v1) :: fs, (k2, v2) :: gs => k1 == k2 && beqVal v1 v2 && beqValFields fs gs
  | _, _ => false

end

mutual

/-- Soundness and completeness of `beqVal` (a `def` because the decidable
equality instance below is built from it). -/
def beqVal_iff : ∀ a b : JSValue, beqVal a b = true ↔ a = b
  | a, b => by
    cases a <;> cases b <;> simp [beqVal]
    case arr.arr xs ys => exact beqValList_iff xs ys
    case obj.obj fs gs => exact beqValFields_iff fs gs

/-- Soundness and completeness of `beqValList`. -/
def beqValList_iff : ∀ l1 l2 : List JSValue, beqValList l1 l2 = true ↔ l1 = l2
  | l1, l2 => by
    cases l1 <;> cases l2 <;> simp [beqValList]
    case cons.cons x xs y ys =>
      exact and_congr (beqVal_iff x y) (beqValList_iff xs ys)

/-- Soundness and completeness of `beqValFields`. -/
def beqValFields_iff :
    ∀ l1 l2 : List (String × JSValue), beqValFields l1 l2 = true ↔ l1 = l2
  | l1, l2 => by
    cases l1 <;> cases l2 <;> simp [beqValFields]
    case cons.cons p fs q gs =>
      cases p
      cases q
      simp [beqValFields]
      rw [beqVal_iff, beqValFields_iff fs gs]

end

instance : DecidableEq JSValue := fun a b =>
  decidable_of_iff (beqVal a b = true) (beqVal_iff a b)

instance {ε α : Type} [DecidableEq ε] [DecidableEq α] : DecidableEq (Except ε α) :=
  fun a b =>
    match a, b with
    | .ok x, .ok y => decidable_of_iff (x = y) (by simp)
    | .error x, .error y => decidable_of_iff (x = y) (by simp)
    | .ok _, .error _ => isFalse (by simp)
    | .error _, .ok _ => isFalse (by simp)

/-- JS truthiness: `undefined`, `null`, `false`, `0`, `NaN` and `""` are
falsy; every other value (including any array or object) is truthy. -/
def truthy : JSValue → Bool
  | .undefined => false
  | .null => false
  | .bool b => b
  | .num none => false
  | .num (some q) => ! q.isZero
  | .str s => s != ""
  | .arr _ => true
  | .obj _ => true

/-- JS property access `v.k`: throws (TypeError) on `null`/`undefined`;
yields the last-written field of an object, `undefined` otherwise.  (The
pipeline never reads `length` or index properties, so primitives and arrays
uniformly give `undefined` here.) -/
def getProp : JSValue → String → Except Unit JSValue
  | .undefined, _ => .error ()
  | .null, _ => .error ()
  | .obj fields, k =>
      match fields.reverse.find? (fun f => f.1 = k) with
      | some f => .ok f.2
      | none => .ok .undefined
  | _, _ => .ok .undefined

/-- Named characters, so that quotes, braces and backslash never appear as
character literals. -/
def dquoteChar : Char := Char.ofNat 34

def squoteChar : Char := Char.ofNat 39

def bslashChar : Char := Char.ofNat 92

def lbraceChar : Char := Char.ofNat 123

def rbraceChar : Char := Char.ofNat 125

/-- Is the character JS-trimmable whitespace (the ASCII part of it)? -/
def isWS (c : Char) : Bool := c = ' ' || c = '\t' || c = '\n' || c = '\r'

/-- Whitespace trim on both ends (model of `String.prototype.trim` for the
ASCII whitespace the pipeline meets). -/
def trimStr (str : String) : String :=
  String.mk (((str.data.dropWhile isWS).reverse.dropWhile isWS).reverse)

/-- Value of a hex digit, if the character is one. -/
def hexVal (c : Char) : Option Nat :=
  if c.isDigit then some (c.toNat - 48)
  else if 97 ≤ c.toNat ∧ c.toNat ≤ 102 then some (c.toNat - 87)
  else if 65 ≤ c.toNat ∧ c.toNat ≤ 70 then some (c.toNat - 55)
  else none

/-- Numeric value of a non-empty all-digit character list. -/
def digitsVal (cs : List Char) : Option Nat :=
  if cs = [] ∨ ¬ cs.all Char.isDigit then none
  else some (cs.foldl (fun acc c => acc * 10 + (c.toNat - 48)) 0)

/-- Characters that can occur inside a decimal numeral. -/
def isNumChar (c : Char) : Bool :=
  c.isDigit || c = '.' || c = '-' || c = '+' || c = 'e' || c = 'E'

/-- Parse an optionally signed decimal numeral (optional fraction and
exponent), consuming the whole character list; `none` models `NaN`. -/
def parseDecimal (cs : List Char) : Option JSNum :=
  let signAndRest : Int × List Char :=
    match cs with
    | c :: r => if c = '-' then (-1, r) else if c = '+' then (1, r) else (1, cs)
    | [] => (1, cs)
  let sign := signAndRest.1
  let cs1 := signAndRest.2
  let ipart := (cs1.span Char.isDigit).1
  let cs2 := (cs1.span Char.isDigit).2
  let hasDot : Bool := match cs2 with
    | c :: _ => c = '.'
    | [] => false
  let fpart := if hasDot then (cs2.tail.span Char.isDigit).1 else []
  let cs3 := if hasDot then (cs2.tail.span Char.isDigit).2 else cs2
  if ipart = [] ∧ fpart = [] then none
  else
    let iv : Nat := (digitsVal ipart).getD 0
    let fv : Nat := (digitsVal fpart).getD 0
    let base : JSNum := ⟨sign * ((iv : Int) * (10 : Int) ^ fpart.length + (fv : Int)), fpart.length⟩
    match cs3 with
    | [] => some base
    | e :: r =>
        if e = 'e' ∨ e = 'E' then
          let negAndDigits : Bool × List Char :=
            match r with
            | c :: r2 => if c = '-' then (true, r2) else if c = '+' then (false, r2) else (false, r)
            | [] => (false, r)
          match negAndDigits.2 with
          | [] => none
          | ds =>
              if ¬ ds.all Char.isDigit then none
              else
                let ev : Nat := (digitsVal ds).getD 0
                if negAndDigits.1 then some ⟨base.m, base.s + ev⟩
                else some ⟨base.m * (10 : Int) ^ ev, base.s⟩
        else none

/-- JS `Number(string)`: trim, empty means `0`, else a decimal numeral;
anything else is `NaN` (hex and `Infinity` forms are outside the model). -/
def strToNumber (s : String) : Option JSNum :=
  let t := trimStr s
  if t = "" then some (JSNum.ofNat 0) else parseDecimal t.data

/-- JS `Number(v)` coercion on the values this pipeline can meet.  Arrays
convert through their joined string form: `[]` is `0`, a singleton converts
like its element's string form, anything longer (its string contains a comma)
and plain objects are `NaN`. -/
def toNumber : JSValue → Option JSNum
  | .undefined => none
  | .null => some (JSNum.ofNat 0)
  | .bool b => some (JSNum.ofNat (if b then 1 else 0))
  | .num q => q
  | .str s => strToNumber s
  | .arr [] => some (JSNum.ofNat 0)
  | .arr [x] =>
      match x with
      | .num q => q
      | .str s => strToNumber s
      | .null => some (JSNum.ofNat 0)
      | .undefined => some (JSNum.ofNat 0)
      | _ => none
  | .arr _ => none
  | .obj _ => none

/-- Strict equality `a === b` between two number-or-`NaN`/`undefined`
operands: true only when both sides are actual numbers of equal value (`NaN`
and `undefined` compare unequal to everything). -/
def strictEqNum (a b : Option JSNum) : Bool :=
  match a, b with
  | some x, some y => x.eqb y
  | _, _ => false

/-! ## JSON parser (model of `JSON.parse`) -/

/-- Skip JSON whitespace. -/
def skipWS : List Char → List Char
  | [] => []
  | c :: r => if isWS c then skipWS r else c :: r

/-- Parse the body of a JSON string literal (the opening quote already
consumed), handling the standard escapes. -/
def parseStrAux : List Char → List Char → Except Unit (String × List Char)
  | [], _ => .error ()
  | c :: rest, acc =>
      if c = dquoteChar then .ok (String.mk acc.reverse, rest)
      else if c = bslashChar then
        match rest with
        | [] => .error ()
        | e :: rest2 =>
            if e = dquoteChar then parseStrAux rest2 (dquoteChar :: acc)
            else if e = bslashChar then parseStrAux rest2 (bslashChar :: acc)
            else if e = '/' then parseStrAux rest2 ('/' :: acc)
            else if e = 'b' then parseStrAux rest2 (Char.ofNat 8 :: acc)
            else if e = 'f' then parseStrAux rest2 (Char.ofNat 12 :: acc)
            else if e = 'n' then parseStrAux rest2 (Char.ofNat 10 :: acc)
            else if e = 'r' then parseStrAux rest2 (Char.ofNat 13 :: acc)
            else if e = 't' then parseStrAux rest2 (Char.ofNat 9 :: acc)
            else if e = 'u' then
              match rest2 with
              | h1 :: h2 :: h3 :: h4 :: rest3 =>
                  match hexVal h1, hexVal h2, hexVal h3, hexVal h4 with
                  | some a, some b, some c2, some d =>
                      parseStrAux rest3 (Char.ofNat (((a * 16 + b) * 16 + c2) * 16 + d) :: acc)
                  | _, _, _, _ => .error ()
              | _ => .error ()
            else .error ()
      else if c.toNat < 32 then .error ()
      else parseStrAux rest (c :: acc)

/-- Parser modes: a value, the elements of an array (with the elements already
read), or the fields of an object. -/
inductive ParseMode where
  | val : ParseMode
  | arrElems (acc : List JSValue) : ParseMode
  | objFields (acc : List (String × JSValue)) : ParseMode

/-- One fuel-indexed recursive JSON parser covering values, array element
lists and object field lists (a single function so that recursion is
structural on the fuel and kernel-evaluable). -/
def parseStep : Nat → ParseMode → List Char → Except Unit (JSValue × List Char)
  | 0, _, _ => .error ()
  | Nat.succ fuel, .val, cs =>
      match skipWS cs with
      | [] => .error ()
      | c :: rest =>
          if c = dquoteChar then
            match parseStrAux rest [] with
            | .error e => .error e
            | .ok sr => .ok (.str sr.1, sr.2)
          else if c = lbraceChar then parseStep fuel (.objFields []) rest
          else if c = '[' then parseStep fuel (.arrElems []) rest
          else if c = 'n' then
            match rest with
            | 'u' :: 'l' :: 'l' :: r => .ok (.null, r)
            | _ => .error ()
          else if c = 't' then
            match rest with
            | 'r' :: 'u' :: 'e' :: r => .ok (.bool true, r)
            | _ => .error ()
          else if c = 'f' then
            match rest with
            | 'a' :: 'l' :: 's' :: 'e' :: r => .ok (.bool false, r)
            | _ => .error ()
          else if c = '-' ∨ c.isDigit then
            match parseDecimal ((c :: rest).span isNumChar).1 with
            | some q => .ok (.num (some q), ((c :: rest).span isNumChar).2)
            | none => .error ()
          else .error ()
  | Nat.succ fuel, .arrElems acc, cs =>
      match skipWS cs with
      | [] => .error ()
      | c :: rest =>
          if c = ']' ∧ acc.isEmpty then .ok (.arr [], rest)
          else
            match parseStep fuel .val (c :: rest) with
            | .error e => .error e
            | .ok vr =>
                match skipWS vr.2 with
                | [] => .error ()
                | c2 :: rest2 =>
                    if c2 = ',' then parseStep fuel (.arrElems (acc ++ [vr.1])) rest2
                    else if c2 = ']' then .ok (.arr (acc ++ [vr.1]), rest2)
                    else .error ()
  | Nat.succ fuel, .objFields acc, cs =>
      match skipWS cs with
      | [] => .error ()
      | c :: rest =>
          if c = rbraceChar ∧ acc.isEmpty then .ok (.obj [], rest)
          else if c = dquoteChar then
            match parseStrAux rest [] with
            | .error e => .error e
            | .ok kr =>
                match skipWS kr.2 with
                | [] => .error ()
                | c2 :: rest2 =>
                    if c2 = ':' then
                      match parseStep fuel .val rest2 with
                      | .error e => .error e
                      | .ok vr =>
                          match skipWS vr.2 with
                          | [] => .error ()
                          | c3 :: rest3 =>
                              if c3 = ',' then
                                parseStep fuel (.objFields (acc ++ [(kr.1, vr.1)])) rest3
                              else if c3 = rbraceChar then
                                .ok (.obj (acc ++ [(kr.1, vr.1)]), rest3)
                              else .error ()
                    else .error ()
          else .error ()

/-- Model of `JSON.parse`: parse one value and require only whitespace to
remain. -/
def parseJSON (s : String) : Except Unit JSValue :=
  match parseStep (2 * s.length + 8) .val s.data with
  | .error e => .error e
  | .ok vr => if skipWS vr.2 = [] then .ok vr.1 else .error ()

/-! ## Diff model (the parse-diff output consumed by the pipeline) -/

/-- One change line of a hunk as produced by the `parse-diff` tokenizer: `ln`
is set on added/deleted lines, `ln2` (the new-file number) on normal/context
lines.  Only the fields the pipeline reads are modelled. -/
structure Change where
  ln : Option Int
  ln2 : Option Int
  content : String
deriving DecidableEq

/-- One hunk (`Chunk` in parse-diff), with raw text and its change lines. -/
structure Chunk where
  content : String
  changes : List Change
deriving DecidableEq

/-- One file of a parsed diff; `to` is the target path (absent on some
malformed diffs, `"/dev/null"` for deletions). -/
structure File where
  «to» : Option String
  chunks : List Chunk
deriving DecidableEq

/-- The JS expression `change.ln || change.ln2`: the value of `ln` unless it
is falsy (`0` or absent), else the value of `ln2` (which may itself be absent,
giving `undefined` = `none`). -/
def lnOrLn2 (c : Change) : Option JSNum :=
  match c.ln with
  | some n => if n = 0 then c.ln2.map JSNum.ofInt else some (JSNum.ofInt n)
  | none => c.ln2.map JSNum.ofInt

/-- A review comment as accumulated by `analyzeCode` and sent to the host:
`{body, path, line}`.  In the current `main.ts` the body is whatever value the
model's `reviewComment` field held (possibly `undefined`), so it is a
`JSValue`; the line is a number or `NaN`. -/
structure ReviewComment where
  body : JSValue
  path : String
  line : Option JSNum
deriving DecidableEq

/-- The JS guard `if (!file.«to») return [];` inside the comment callbacks:
gives the path only when `file.«to»` is truthy (present and non-empty). -/
def fileToPath : Option String → Option String
  | some p => if p = "" then none else some p
  | none => none

/-! ## Model of `String.prototype.replace` with a global pattern -/

/-- Replace every (non-overlapping, leftmost) occurrence of `pat` in the
character list; fuel is the list length, consumed at least one character per
step. -/
def replaceAllAux (pat rep : List Char) : Nat → List Char → List Char
  | 0, l => l
  | Nat.succ fuel, l =>
      match l with
      | [] => []
      | c :: rest =>
          if pat ≠ [] ∧ l.take pat.length = pat then
            rep ++ replaceAllAux pat rep fuel (l.drop pat.length)
          else c :: replaceAllAux pat rep fuel rest

/-- Replace every occurrence of `pat` (non-empty in all uses here) by `rep`:
the semantics of `text.replace(/pat/g, rep)` for a literal pattern. -/
def strReplace (s pat rep : String) : String :=
  String.mk (replaceAllAux pat.data rep.data s.data.length s.data)

/-- The apostrophe as a one-character string. -/
def squoteStr : String := String.mk [squoteChar]

/-! ## Response validation (`getAIResponse`, src/main.ts lines 123-158) -/

/-- Pipeline events: a prompt was built for a hunk of a file (model output is
then requested for it), or the `catch` of `getAIResponse` logged an error. -/
inductive PEv where
  | promptBuilt (f : File) (ch : Chunk) : PEv
  | aiError : PEv
deriving DecidableEq

/-- Model of `getAIResponse`: the Review Client oracle gives the raw model
text for this hunk (`none` when the API call threw; a `null` content behaves
like `""`).  The text is trimmed, an empty text becomes `"{}"`, the result is
JSON-parsed and its `reviews` property is returned; every throw inside the
`try` is caught, logged, and turned into `null`. -/
def getAIResponse (content : Option String) : JSValue × List PEv :=
  match content with
  | none => (.null, [.aiError])
  | some text =>
      let t := trimStr text
      let res := if t = "" then "\x7b\x7d" else t
      match parseJSON res with
      | .error _ => (.null, [.aiError])
      | .ok v =>
          match getProp v "reviews" with
          | .error _ => (.null, [.aiError])
          | .ok r => (r, [])

namespace Current

/-! Definitions from the current `src/main.ts`. -/

/-- The `flatMap` callback loop of the current `createComment` (src/main.ts
lines 168-177): each element yields `{body: e.reviewComment, path: file.«to»,
line: Number(e.lineNumber)}`, with no membership check of the line against
the chunk and no escaping; property access on an inaccessible element
throws. -/
def createCommentGo (file : File) : List JSValue → Except Unit (List ReviewComment)
  | [] => .ok []
  | e :: rest =>
      match fileToPath file.«to» with
      | none => createCommentGo file rest
      | some p =>
          match getProp e "reviewComment" with
          | .error u => .error u
          | .ok body =>
              match getProp e "lineNumber" with
              | .error u => .error u
              | .ok lnv =>
                  match createCommentGo file rest with
                  | .error u => .error u
                  | .ok cs => .ok ({ body := body, path := p, line := toNumber lnv } :: cs)

/-- Model of the current `createComment` (src/main.ts lines 160-178):
`aiResponses.flatMap(...)`; calling it on a non-array value throws
(TypeError), as `flatMap` only exists on arrays. -/
def createComment (file : File) (_chunk : Chunk) (aiResponses : JSValue) :
    Except Unit (List ReviewComment) :=
  match aiResponses with
  | .arr elems => createCommentGo file elems
  | _ => .error ()

/-- Per-file hunk loop of `analyzeCode` (src/main.ts lines 71-85): build the
prompt, query the model, and if the response is truthy append the comments
`createComment` makes from it.  The oracle index `k` numbers hunks globally
in processing order. -/
def analyzeChunks (oracle : Nat → Option String) (file : File) :
    List Chunk → Nat → Except Unit (List ReviewComment × List PEv × Nat)
  | [], k => .ok ([], [], k)
  | ch :: rest, k =>
      let resp := getAIResponse (oracle k)
      let ev := PEv.promptBuilt file ch
      if truthy resp.1 then
        match createComment file ch resp.1 with
        | .error u => .error u
        | .ok newComments =>
            match analyzeChunks oracle file rest (k + 1) with
            | .error u => .error u
            | .ok out => .ok (newComments ++ out.1, ev :: resp.2 ++ out.2.1, out.2.2)
      else
        match analyzeChunks oracle file rest (k + 1) with
        | .error u => .error u
        | .ok out => .ok (out.1, ev :: resp.2 ++ out.2.1, out.2.2)

/-- File loop of `analyzeCode` (src/main.ts lines 69-87): deleted files
(`to === "/dev/null"`) are skipped before any prompt is built. -/
def analyzeFilesGo (oracle : Nat → Option String) :
    List File → Nat → Except Unit (List ReviewComment × List PEv × Nat)
  | [], k => .ok ([], [], k)
  | f :: rest, k =>
      if f.«to» = some "/dev/null" then analyzeFilesGo oracle rest k
      else
        match analyzeChunks oracle f f.chunks k with
        | .error u => .error u
        | .ok out =>
            match analyzeFilesGo oracle rest out.2.2 with
            | .error u => .error u
            | .ok out2 => .ok (out.1 ++ out2.1, out.2.1 ++ out2.2.1, out2.2.2)

/-- Model of `analyzeCode` (src/main.ts lines 62-88). -/
def analyzeCode (oracle : Nat → Option String) (files : List File) :
    Except Unit (List ReviewComment × List PEv) :=
  match analyzeFilesGo oracle files 0 with
  | .error u => .error u
  | .ok out => .ok (out.1, out.2.1)

end Current

namespace V1

/-! Definitions from the historical variant in `src/unnamed/part_001` (first
document): `createComment` with the anchoring check and
`escapeSpecialChars`. -/

/-- Model of `escapeSpecialChars` (part_001 lines 155-162): sequentially
escape backslash, double quote, single quote, newline, carriage return and
tab. -/
def escapeSpecialChars (text : String) : String :=
  strReplace
    (strReplace
      (strReplace
        (strReplace
          (strReplace
            (strReplace text "\\" "\\\\")
            "\"" "\\\"")
          squoteStr ("\\" ++ squoteStr))
        "\n" "\\n")
      "\r" "\\r")
    "\t" "\\t"

/-- Observability events of the variant `createComment`: a candidate's line
number was not found in the chunk and was logged. -/
inductive V1Ev where
  | lineNotFound (line : Option JSNum) (path : String) : V1Ev
deriving DecidableEq

/-- The `flatMap` callback loop of the variant `createComment` (part_001
lines 172-187): coerce the candidate's line number, look it up among the
chunk's changes by `change.ln || change.ln2`, drop and log on a miss, and on
a hit emit the comment with the escaped body. -/
def createCommentGo (file : File) (chunk : Chunk) :
    List JSValue → Except Unit (List ReviewComment × List V1Ev)
  | [] => .ok ([], [])
  | e :: rest =>
      match fileToPath file.«to» with
      | none => createCommentGo file chunk rest
      | some p =>
          match getProp e "lineNumber" with
          | .error u => .error u
          | .ok lnv =>
              let lineNumber := toNumber lnv
              match chunk.changes.find? (fun c => strictEqNum (lnOrLn2 c) lineNumber) with
              | none =>
                  match createCommentGo file chunk rest with
                  | .error u => .error u
                  | .ok out => .ok (out.1, .lineNotFound lineNumber p :: out.2)
              | some _ =>
                  match getProp e "reviewComment" with
                  | .error u => .error u
                  | .ok rc =>
                      match rc with
                      | .str s0 =>
                          match createCommentGo file chunk rest with
                          | .error u => .error u
                          | .ok out =>
                              .ok ({ body := .str (escapeSpecialChars s0), path := p,
                                     line := lineNumber } :: out.1, out.2)
                      | _ => .error ()

/-- Model of the variant `createComment` (part_001 lines 164-188). -/
def createComment (file : File) (chunk : Chunk) (aiResponses : JSValue) :
    Except Unit (List ReviewComment × List V1Ev) :=
  match aiResponses with
  | .arr elems => createCommentGo file chunk elems
  | _ => .error ()

end V1

/-! ## Delivery scheduler (`createReviewComment`, src/main.ts lines 180-212) -/

/-- Delivery events: a submission attempt of a batch (tagged with batch
index, 1-based attempt number, content and host outcome), the failure /
success / drop log lines, and one `setTimeout(DELAY_BETWEEN_BATCHES)`
suspension. -/
inductive DEv where
  | submit (bIdx attempt : Nat) (batch : List ReviewComment) (ok : Bool) : DEv
  | logFail (bIdx attempt : Nat) : DEv
  | logSuccess (bIdx : Nat) : DEv
  | logDrop (bIdx : Nat) : DEv
  | waitD : DEv
deriving DecidableEq

/-- Fuel-indexed worker for `chunkList` (the fuel is an upper bound on the
list length, and each step consumes at least one element when `1 ≤ B`). -/
def chunkListAux {α : Type} (B : Nat) : Nat → List α → List (List α)
  | 0, _ => []
  | Nat.succ _, [] => []
  | Nat.succ fuel, x :: xs => (x :: xs).take B :: chunkListAux B fuel ((x :: xs).drop B)

/-- Partition a list into consecutive chunks of size `B` (the last chunk may
be shorter); empty for `B = 0`.  This is the partition the design document
specifies for the Delivery Scheduler, proved below to be what the
`createReviewComment` loop submits. -/
def chunkList {α : Type} (B : Nat) (l : List α) : List (List α) :=
  if B = 0 then [] else chunkListAux B l.length l

/-- The `while (retries > 0)` retry loop for one batch (src/main.ts lines
188-209), started with `retries = 3`: submit; on success log and break; on
failure log the attempt (`4 - retries`), decrement, and either log the drop
(when exhausted) or wait the delay and retry.  `host n` is the outcome of the
`n`-th `octokit.pulls.createReview` call of the run; the returned counter
threads that numbering. -/
def attemptLoop (host : Nat → Bool) (bIdx : Nat) (batch : List ReviewComment) :
    Nat → Nat → List DEv × Nat
  | 0, n => ([], n)
  | Nat.succ r, n =>
      if host n then ([.submit bIdx (3 - r) batch true, .logSuccess bIdx], n + 1)
      else if r = 0 then
        ([.submit bIdx (3 - r) batch false, .logFail bIdx (3 - r), .logDrop bIdx], n + 1)
      else
        let next := attemptLoop host bIdx batch r (n + 1)
        (.submit bIdx (3 - r) batch false :: .logFail bIdx (3 - r) :: .waitD :: next.1, next.2)

/-- JS `Array.prototype.slice` index resolution: `NaN` becomes `0`, negative
values count from the end, and everything is clamped to `[0, len]`. -/
def jsSliceIdx (len : Nat) (q : Option JSNum) : Nat :=
  match q with
  | none => 0
  | some d =>
      let t := d.trunc
      if t < 0 then ((len : Int) + t).toNat else min t.toNat len

/-- JS `l.slice(qstart, qend)`. -/
def jsSlice {α : Type} (l : List α) (qstart qend : Option JSNum) : List α :=
  let s := jsSliceIdx l.length qstart
  let e := jsSliceIdx l.length qend
  (l.drop s).take (e - s)

/-- JS `+` on two number-or-`NaN` values. -/
def addJS (a b : Option JSNum) : Option JSNum :=
  match a, b with
  | some x, some y => some (x.add y)
  | _, _ => none

/-- JS `i < len` where `i` may be `NaN` (then false). -/
def ltLenJS (i : Option JSNum) (len : Nat) : Bool :=
  match i with
  | none => false
  | some d => d.ltb (JSNum.ofNat len)

namespace Current

/-- The `for (let i = 0; i < comments.length; i += BATCH_SIZE)` loop of
`createReviewComment` (src/main.ts lines 186-212), with JS number semantics
for the loop index (so a zero or `NaN` batch size behaves as in JS).  The
fuel bounds the number of iterations this model can unfold: `none` means the
fuel was exhausted before the loop terminated. -/
def createReviewCommentLoop (host : Nat → Bool) (comments : List ReviewComment)
    (B : Option JSNum) : Nat → Option JSNum → Nat → Nat → Option (List DEv)
  | 0, _, _, _ => none
  | Nat.succ fuel, i, bIdx, n =>
      if ltLenJS i comments.length then
        let batch := jsSlice comments i (addJS i B)
        let att := attemptLoop host bIdx batch 3 n
        match createReviewCommentLoop host comments B fuel (addJS i B) (bIdx + 1) att.2 with
        | none => none
        | some rest => some (att.1 ++ .waitD :: rest)
      else some []

/-- Model of `createReviewComment` (src/main.ts lines 180-212): run the batch
loop from `i = 0`. -/
def createReviewComment (host : Nat → Bool) (comments : List ReviewComment)
    (B : Option JSNum) (fuel : Nat) : Option (List DEv) :=
  createReviewCommentLoop host comments B fuel (some (JSNum.ofNat 0)) 0 0

end Current

/-! ## Orchestration (`main`, src/main.ts lines 214-294) -/

/-- JS `s.split(",")`: split at every comma (the empty string gives
`[""]`). -/
def splitCommaAux : List Char → List Char → List String
  | [], acc => [String.mk acc.reverse]
  | c :: rest, acc =>
      if c = ',' then String.mk acc.reverse :: splitCommaAux rest []
      else splitCommaAux rest (c :: acc)

/-- JS `core.getInput("include").split(",").map((s) => s.trim())`. -/
def includePatternsOf (s : String) : List String :=
  (splitCommaAux s.data []).map trimStr

/-- The include filter of `main` (src/main.ts lines 263-267):
`parsedDiff.filter(file => includePatterns.some(pattern =>
minimatch(file.to ?? "", pattern)))`, with the external `minimatch` as an
oracle. -/
def filterFiles (matcher : String → String → Bool) (patterns : List String)
    (files : List File) : List File :=
  files.filter (fun f => patterns.any (fun p => matcher (f.«to».getD "") p))

/-- The log lines of `main` that the error-handling claims observe. -/
inductive MEv where
  | logError : MEv
  | logUnsupported : MEv
  | logNoDiff : MEv
deriving DecidableEq

/-- Environment of one run: the event payload file, the outcomes of the
external collaborators (host API, diff tokenizer, path filter, model), and
the `BATCH_SIZE` configuration value (already `Number(...)`-coerced, `none`
for `NaN`).  `DELAY_BETWEEN_BATCHES` has no observable effect beyond the
`waitD` events and needs no field. -/
structure Env where
  eventText : String
  prMeta : Except Unit Unit
  prDiff : Except Unit String
  compareDiff : Except Unit String
  includeInput : String
  matcher : String → String → Bool
  parseDiffFn : String → List File
  oracle : Nat → Option String
  host : Nat → Bool
  batchSize : Option JSNum

namespace Current

/-- Model of `getPRDetails` (src/main.ts lines 29-45): read and parse the
event payload, destructure `repository`/`number`, access
`repository.owner.login` and `repository.name`, and fetch the PR metadata.
Any throw propagates (it is caught by `main`'s `catch`). -/
def getPRDetails (env : Env) : Except Unit Unit :=
  match parseJSON env.eventText with
  | .error u => .error u
  | .ok ev =>
      match getProp ev "repository" with
      | .error u => .error u
      | .ok repository =>
          match getProp ev "number" with
          | .error u => .error u
          | .ok _number =>
              match getProp repository "owner" with
              | .error u => .error u
              | .ok owner =>
                  match getProp owner "login" with
                  | .error u => .error u
                  | .ok _login =>
                      match getProp repository "name" with
                      | .error u => .error u
                      | .ok _name => env.prMeta

/-- The tail of `main` after a diff string was obtained (src/main.ts lines
248-284): bail out logging `No diff found` on an empty diff, tokenize,
filter by the include patterns, analyze, and deliver when there are comments.
Returns the exit code with the observed log events; `none` means the
delivery loop ran out of fuel (did not terminate). -/
def mainAfterDiff (env : Env) (fuel : Nat) (d : String) : Option (Nat × List MEv) :=
  if d = "" then some (0, [.logNoDiff])
  else
    let files := env.parseDiffFn d
    let patterns := includePatternsOf env.includeInput
    let filtered := filterFiles env.matcher patterns files
    match analyzeCode env.oracle filtered with
    | .error _ => some (1, [.logError])
    | .ok out =>
        if 0 < out.1.length then
          match createReviewComment env.host out.1 env.batchSize fuel with
          | none => none
          | some _ => some (0, [])
        else some (0, [])

/-- Model of `main` (src/main.ts lines 214-294) plus the top-level rejection
handler: every throw inside the `try` is caught, logged, and turned into
`process.exit(1)`; an unsupported event action or an empty diff logs and
returns normally (exit code 0). -/
def main (env : Env) (fuel : Nat) : Option (Nat × List MEv) :=
  match getPRDetails env with
  | .error _ => some (1, [.logError])
  | .ok _ =>
      match parseJSON env.eventText with
      | .error _ => some (1, [.logError])
      | .ok eventData =>
          match getProp eventData "action" with
          | .error _ => some (1, [.logError])
          | .ok act =>
              if act = .str "opened" then
                match env.prDiff with
                | .error _ => some (1, [.logError])
                | .ok d => mainAfterDiff env fuel d
              else if act = .str "synchronize" then
                match getProp eventData "before" with
                | .error _ => some (1, [.logError])
                | .ok _ =>
                    match getProp eventData "after" with
                    | .error _ => some (1, [.logError])
                    | .ok _ =>
                        match env.compareDiff with
                        | .error _ => some (1, [.logError])
                        | .ok d => mainAfterDiff env fuel d
              else some (0, [.logUnsupported])

end Current

/-! ## Trace observations used by the theorem statements -/

/-- The attempt-event segments of a batch list: for each batch, the events of
its retry loop (without the trailing inter-batch wait), threading the global
submission counter. -/
def attemptSegs (host : Nat → Bool) : List (List ReviewComment) → Nat → Nat → List (List DEv)
  | [], _, _ => []
  | b :: rest, bIdx, n =>
      (attemptLoop host bIdx b 3 n).1 ::
        attemptSegs host rest (bIdx + 1) (attemptLoop host bIdx b 3 n).2

/-- The batches of a delivery trace, read off its first-attempt submission
events in order. -/
def firstAttempts (tr : List DEv) : List (List ReviewComment) :=
  tr.filterMap fun e =>
    match e with
    | .submit _ a b _ => if a = 1 then some b else none
    | _ => none

/-- How many submission attempts a given batch index received in a trace. -/
def submitCount (tr : List DEv) (i : Nat) : Nat :=
  (tr.filter fun e =>
    match e with
    | .submit j _ _ _ => j == i
    | _ => false).length

/-- The batch index an event belongs to (`none` for the inter-batch /
retry waits). -/
def evBatchIdx : DEv → Option Nat
  | .submit j _ _ _ => some j
  | .logFail j _ => some j
  | .logSuccess j => some j
  | .logDrop j => some j
  | .waitD => none

/-! ## Concrete fixtures for the counterexamples and witnesses -/

/-- An added line with new-file number 10. -/
def exChange10 : Change := ⟨some 10, none, "+ a"⟩

/-- A context line with new-file number 12. -/
def exChange12 : Change := ⟨none, some 12, "  b"⟩

/-- A hunk whose addressable line numbers are exactly 10 and 12. -/
def exChunk : Chunk := ⟨"@@ -1,2 +1,3 @@", [exChange10, exChange12]⟩

/-- A file with one hunk. -/
def exFile : File := ⟨some "file.ts", [exChunk]⟩

/-- A well-formed review candidate as the model emits it. -/
def exCand (ln cm : String) : JSValue :=
  .obj [("lineNumber", .str ln), ("reviewComment", .str cm)]

/-- An event payload whose action is `"closed"` (well-formed otherwise). -/
def evClosedText : String :=
  "\x7b\"repository\": \x7b\"owner\": \x7b\"login\": \"o\"\x7d, \"name\": \"r\"\x7d, \"number\": 1, \"action\": \"closed\"\x7d"

/-- An event payload whose action is `"opened"`. -/
def evOpenedText : String :=
  "\x7b\"repository\": \x7b\"owner\": \x7b\"login\": \"o\"\x7d, \"name\": \"r\"\x7d, \"number\": 1, \"action\": \"opened\"\x7d"

/-- A run environment whose event action is `"closed"` and whose
collaborators all behave. -/
def envClosed : Env :=
  { eventText := evClosedText
    prMeta := .ok ()
    prDiff := .ok "d"
    compareDiff := .ok "d"
    includeInput := ""
    matcher := fun _ _ => false
    parseDiffFn := fun _ => []
    oracle := fun _ => none
    host := fun _ => true
    batchSize := some ⟨5, 0⟩ }

/-- A run environment whose event payload is not JSON. -/
def envBadEvent : Env := { envClosed with eventText := "oops" }

/-- A run environment for an opened PR whose diff is empty. -/
def envEmptyDiff : Env := { envClosed with eventText := evOpenedText, prDiff := .ok "" }

/-- A run environment for an opened PR with one matching one-hunk file whose
model output cites the absent line 99. -/
def envFull : Env :=
  { envClosed with
    eventText := evOpenedText
    prDiff := .ok "diff"
    includeInput := "*.ts"
    matcher := fun s p => p = "*.ts" && s = "file.ts"
    parseDiffFn := fun _ => [exFile]
    oracle := fun _ =>
      some "\x7b\"reviews\": [\x7b\"lineNumber\": \"99\", \"reviewComment\": \"x\"\x7d]\x7d" }

/-- Sample review comments for the delivery witnesses. -/
def exRC1 : ReviewComment := ⟨.str "a", "p.ts", some ⟨10, 0⟩⟩

def exRC2 : ReviewComment := ⟨.str "b", "p.ts", some ⟨12, 0⟩⟩

def exRC3 : ReviewComment := ⟨.str "c", "p.ts", some ⟨14, 0⟩⟩

/-- A host that fails the first three submissions and then succeeds. -/
def exHost3 (n : Nat) : Bool := decide (3 ≤ n)

/-- The delivery trace of `[exRC1], [exRC2]` under `exHost3`: batch 0
exhausts its three attempts and is dropped, batch 1 succeeds. -/
def exTrace6 : List DEv :=
  [.submit 0 1 [exRC1] false, .logFail 0 1, .waitD,
   .submit 0 2 [exRC1] false, .logFail 0 2, .waitD,
   .submit 0 3 [exRC1] false, .logFail 0 3, .logDrop 0, .waitD,
   .submit 1 1 [exRC2] true, .logSuccess 1, .waitD]

/-! ## Helper lemmas: the JS loop-index arithmetic -/

theorem ltb_ofNat (a b : Nat) : JSNum.ltb (JSNum.ofNat a) (JSNum.ofNat b) = decide (a < b) := by
  simp [JSNum.ltb, JSNum.ofNat]

theorem add_ofNat (a b : Nat) :
    JSNum.add (JSNum.ofNat a) (JSNum.ofNat b) = JSNum.ofNat (a + b) := by
  simp [JSNum.add, JSNum.ofNat]

theorem addJS_ofNat (a b : Nat) :
    addJS (some (JSNum.ofNat a)) (some (JSNum.ofNat b)) = some (JSNum.ofNat (a + b)) := by
  simp [addJS, add_ofNat]

theorem trunc_ofNat (k : Nat) : (JSNum.ofNat k).trunc = (k : Int) := by
  simp [JSNum.trunc, JSNum.ofNat]

theorem jsSliceIdx_ofNat (len k : Nat) : jsSliceIdx len (some (JSNum.ofNat k)) = min k len := by
  simp [jsSliceIdx, trunc_ofNat]

theorem jsSlice_ofNat {α : Type} (l : List α) (k e : Nat) :
    jsSlice l (some (JSNum.ofNat k)) (some (JSNum.ofNat e)) = (l.drop k).take (e - k) := by
  simp only [jsSlice, jsSliceIdx_ofNat]
  rcases le_or_lt k l.length with hk | hk
  · rw [min_eq_left hk]
    rcases le_or_lt e l.length with he | he
    · rw [min_eq_left he]
    · rw [min_eq_right (le_of_lt he)]
      have hlen : (l.drop k).length = l.length - k := l.length_drop k
      rw [List.take_of_length_le (by omega), List.take_of_length_le (by omega)]
  · rw [min_eq_right (le_of_lt hk), List.drop_length, List.drop_eq_nil_of_le (le_of_lt hk)]
    simp

/-! ## Helper lemmas: the chunk partition -/

theorem chunkListAux_nil {α : Type} (B fuel : Nat) : chunkListAux B fuel ([] : List α) = [] := by
  cases fuel <;> rfl

theorem chunkListAux_congr {α : Type} {B : Nat} (hB : 1 ≤ B) :
    ∀ fuel1 fuel2 (l : List α), l.length ≤ fuel1 → l.length ≤ fuel2 →
      chunkListAux B fuel1 l = chunkListAux B fuel2 l := by
  intro fuel1
  induction fuel1 with
  | zero =>
      intro fuel2 l h1 _
      have : l = [] := List.eq_nil_of_length_eq_zero (Nat.le_zero.mp h1)
      subst this
      rw [chunkListAux_nil, chunkListAux_nil]
  | succ f1 ih =>
      intro fuel2 l h1 h2
      cases l with
      | nil => rw [chunkListAux_nil, chunkListAux_nil]
      | cons x xs =>
          cases fuel2 with
          | zero => simp at h2
          | succ f2 =>
              simp only [chunkListAux]
              congr 1
              exact ih f2 _ (by simp at h1 ⊢; omega) (by simp at h2 ⊢; omega)

theorem chunkList_nil {α : Type} (B : Nat) : chunkList B ([] : List α) = [] := by
  simp [chunkList, chunkListAux_nil]

theorem chunkList_cons {α : Type} {B : Nat} (hB : 1 ≤ B) (l : List α) (hl : l ≠ []) :
    chunkList B l = l.take B :: chunkList B (l.drop B) := by
  cases l with
  | nil => exact absurd rfl hl
  | cons x xs =>
      simp only [chunkList, if_neg (by omega : ¬ B = 0)]
      simp only [List.length_cons, chunkListAux]
      congr 1
      exact chunkListAux_congr hB xs.length _ _ (by simp; omega) le_rfl

theorem chunkList_flatten {α : Type} {B : Nat} (hB : 1 ≤ B) :
    ∀ l : List α, (chunkList B l).flatten = l := by
  have aux : ∀ fuel (l : List α), l.length ≤ fuel → (chunkList B l).flatten = l := by
    intro fuel
    induction fuel with
    | zero =>
        intro l h
        have : l = [] := List.eq_nil_of_length_eq_zero (Nat.le_zero.mp h)
        subst this
        simp [chunkList_nil]
    | succ f ih =>
        intro l h
        rcases eq_or_ne l [] with rfl | hl
        · simp [chunkList_nil]
        · rw [chunkList_cons hB l hl]
          simp only [List.flatten_cons]
          rw [ih (l.drop B) (by have := List.length_drop B l; omega)]
          exact List.take_append_drop B l
  exact fun l => aux l.length l le_rfl

theorem chunkList_length {α : Type} {B : Nat} (hB : 1 ≤ B) :
    ∀ l : List α, (chunkList B l).length = (l.length + B - 1) / B := by
  have aux : ∀ fuel (l : List α), l.length ≤ fuel →
      (chunkList B l).length = (l.length + B - 1) / B := by
    intro fuel
    induction fuel with
    | zero =>
        intro l h
        have : l = [] := List.eq_nil_of_length_eq_zero (Nat.le_zero.mp h)
        subst this
        simp [chunkList_nil]
        rw [Nat.div_eq_of_lt (by omega)]
    | succ f ih =>
        intro l h
        rcases eq_or_ne l [] with rfl | hl
        · simp [chunkList_nil]
          rw [Nat.div_eq_of_lt (by omega)]
        · rw [chunkList_cons hB l hl]
          have hlen : 1 ≤ l.length := List.length_pos.mpr hl
          have hdrop : (l.drop B).length = l.length - B := List.length_drop B l
          rw [List.length_cons, ih (l.drop B) (by omega), hdrop]
          have h1 : l.length + B - 1 = (l.length - 1) + B := by omega
          rw [h1, Nat.add_div_right _ (by omega)]
          have h2 : (l.length - B + B - 1) / B = (l.length - 1) / B := by
            rcases le_or_lt B l.length with hc | hc
            · congr 1
              omega
            · rw [(by omega : l.length - B = 0)]
              rw [Nat.div_eq_of_lt (by omega), Nat.div_eq_of_lt (by omega)]
          rw [h2]
  exact fun l => aux l.length l le_rfl

theorem chunkList_mem_length {α : Type} {B : Nat} (hB : 1 ≤ B) :
    ∀ (l : List α) b, b ∈ chunkList B l → b.length ≤ B := by
  have aux : ∀ fuel (l : List α) b, l.length ≤ fuel → b ∈ chunkList B l → b.length ≤ B := by
    intro fuel
    induction fuel with
    | zero =>
        intro l b h hb
        have : l = [] := List.eq_nil_of_length_eq_zero (Nat.le_zero.mp h)
        subst this
        simp [chunkList_nil] at hb
    | succ f ih =>
        intro l b h hb
        rcases eq_or_ne l [] with rfl | hl
        · simp [chunkList_nil] at hb
        · rw [chunkList_cons hB l hl] at hb
          rcases List.mem_cons.mp hb with rfl | hb2
          · have := l.length_take B
            omega
          · exact ih (l.drop B) b (by have := List.length_drop B l; omega) hb2
  exact fun l b hb => aux l.length l b le_rfl hb

theorem chunkList_ne_nil {α : Type} {B : Nat} (hB : 1 ≤ B) (l : List α) (hl : l ≠ []) :
    chunkList B l ≠ [] := by
  rw [chunkList_cons hB l hl]
  simp

theorem chunkList_dropLast_length {α : Type} {B : Nat} (hB : 1 ≤ B) :
    ∀ (l : List α) b, b ∈ (chunkList B l).dropLast → b.length = B := by
  have aux : ∀ fuel (l : List α) b, l.length ≤ fuel →
      b ∈ (chunkList B l).dropLast → b.length = B := by
    intro fuel
    induction fuel with
    | zero =>
        intro l b h hb
        have : l = [] := List.eq_nil_of_length_eq_zero (Nat.le_zero.mp h)
        subst this
        simp [chunkList_nil] at hb
    | succ f ih =>
        intro l b h hb
        rcases eq_or_ne l [] with rfl | hl
        · simp [chunkList_nil] at hb
        · rw [chunkList_cons hB l hl] at hb
          rcases eq_or_ne (l.drop B) [] with hdnil | hdnil
          · rw [hdnil, chunkList_nil] at hb
            simp at hb
          · have htail : chunkList B (l.drop B) ≠ [] := chunkList_ne_nil hB _ hdnil
            rw [List.dropLast_cons_of_ne_nil htail] at hb
            rcases List.mem_cons.mp hb with rfl | hb2
            · have hlb : B < l.length := by
                by_contra hc
                exact hdnil (List.drop_eq_nil_of_le (by omega))
              have := l.length_take B
              omega
            · exact ih (l.drop B) b (by have := List.length_drop B l; omega) hb2
  exact fun l b hb => aux l.length l b le_rfl hb

/-! ## Helper lemmas: the retry loop for one batch -/

theorem attemptLoop3_cases (host : Nat → Bool) (bIdx : Nat) (batch : List ReviewComment)
    (n : Nat) :
    (host n = true ∧
      attemptLoop host bIdx batch 3 n =
        ([.submit bIdx 1 batch true, .logSuccess bIdx], n + 1))
    ∨ (host n = false ∧ host (n + 1) = true ∧
      attemptLoop host bIdx batch 3 n =
        ([.submit bIdx 1 batch false, .logFail bIdx 1, .waitD,
          .submit bIdx 2 batch true, .logSuccess bIdx], n + 2))
    ∨ (host n = false ∧ host (n + 1) = false ∧ host (n + 2) = true ∧
      attemptLoop host bIdx batch 3 n =
        ([.submit bIdx 1 batch false, .logFail bIdx 1, .waitD,
          .submit bIdx 2 batch false, .logFail bIdx 2, .waitD,
          .submit bIdx 3 batch true, .logSuccess bIdx], n + 3))
    ∨ (host n = false ∧ host (n + 1) = false ∧ host (n + 2) = false ∧
      attemptLoop host bIdx batch 3 n =
        ([.submit bIdx 1 batch false, .logFail bIdx 1, .waitD,
          .submit bIdx 2 batch false, .logFail bIdx 2, .waitD,
          .submit bIdx 3 batch false, .logFail bIdx 3, .logDrop bIdx], n + 3)) := by
  cases h0 : host n with
  | true => exact Or.inl ⟨rfl, by simp [attemptLoop, h0]⟩
  | false =>
      cases h1 : host (n + 1) with
      | true => exact Or.inr (Or.inl ⟨rfl, rfl, by simp [attemptLoop, h0, h1]⟩)
      | false =>
          cases h2 : host (n + 2) with
          | true => exact Or.inr (Or.inr (Or.inl ⟨rfl, rfl, rfl, by simp [attemptLoop, h0, h1, h2]⟩))
          | false => exact Or.inr (Or.inr (Or.inr ⟨rfl, rfl, rfl, by simp [attemptLoop, h0, h1, h2]⟩))

theorem attemptLoop3_head (host : Nat → Bool) (bIdx : Nat) (batch : List ReviewComment)
    (n : Nat) :
    ∃ ok rest, (attemptLoop host bIdx batch 3 n).1 = .submit bIdx 1 batch ok :: rest := by
  rcases attemptLoop3_cases host bIdx batch n with ⟨_, he⟩ | ⟨_, _, he⟩ | ⟨_, _, _, he⟩ |
    ⟨_, _, _, he⟩ <;> rw [he] <;> exact ⟨_, _, rfl⟩

theorem attemptLoop3_firstAttempts (host : Nat → Bool) (bIdx : Nat)
    (batch : List ReviewComment) (n : Nat) :
    firstAttempts (attemptLoop host bIdx batch 3 n).1 = [batch] := by
  rcases attemptLoop3_cases host bIdx batch n with ⟨_, he⟩ | ⟨_, _, he⟩ | ⟨_, _, _, he⟩ |
    ⟨_, _, _, he⟩ <;> rw [he] <;> simp [firstAttempts]

theorem attemptLoop3_events (host : Nat → Bool) (bIdx : Nat) (batch : List ReviewComment)
    (n : Nat) :
    ∀ e ∈ (attemptLoop host bIdx batch 3 n).1, evBatchIdx e = some bIdx ∨ e = .waitD := by
  rcases attemptLoop3_cases host bIdx batch n with ⟨_, he⟩ | ⟨_, _, he⟩ | ⟨_, _, _, he⟩ |
    ⟨_, _, _, he⟩ <;> rw [he] <;> intro e he2 <;> simp at he2 <;>
    rcases he2 with rfl | rfl | rfl | rfl | rfl | rfl | rfl | rfl | rfl <;>
    simp [evBatchIdx]

theorem attemptLoop3_submitCount (host : Nat → Bool) (bIdx : Nat)
    (batch : List ReviewComment) (n i : Nat) :
    submitCount (attemptLoop host bIdx batch 3 n).1 i ≤ 3 := by
  rcases attemptLoop3_cases host bIdx batch n with ⟨_, he⟩ | ⟨_, _, he⟩ | ⟨_, _, _, he⟩ |
    ⟨_, _, _, he⟩ <;> rw [he] <;> cases hj : (bIdx == i) <;>
    simp [submitCount, List.filter_cons, hj]

theorem submitCount_append (tr1 tr2 : List DEv) (i : Nat) :
    submitCount (tr1 ++ tr2) i = submitCount tr1 i + submitCount tr2 i := by
  simp [submitCount]

theorem submitCount_zero_of_ne (tr : List DEv) (i : Nat)
    (h : ∀ e ∈ tr, evBatchIdx e = some i → False) : submitCount tr i = 0 := by
  induction tr with
  | nil => rfl
  | cons e rest ih =>
      have hrest : submitCount rest i = 0 := ih fun e2 h2 => h e2 (List.mem_cons_of_mem _ h2)
      cases e with
      | submit j a b ok =>
          have : ¬ j = i := fun hj => h _ (List.mem_cons_self _ _) (by simp [evBatchIdx, hj])
          simp [submitCount] at hrest ⊢
          simpa [this] using hrest
      | logFail j a => simpa [submitCount] using hrest
      | logSuccess j => simpa [submitCount] using hrest
      | logDrop j => simpa [submitCount] using hrest
      | waitD => simpa [submitCount] using hrest

theorem attemptLoop3_success_or_drop (host : Nat → Bool) (bIdx : Nat)
    (batch : List ReviewComment) (n : Nat) :
    (∃ a, .submit bIdx a batch true ∈ (attemptLoop host bIdx batch 3 n).1)
    ∨ .logDrop bIdx ∈ (attemptLoop host bIdx batch 3 n).1 := by
  rcases attemptLoop3_cases host bIdx batch n with ⟨_, he⟩ | ⟨_, _, he⟩ | ⟨_, _, _, he⟩ |
    ⟨_, _, _, he⟩ <;> rw [he]
  · exact Or.inl ⟨1, by simp⟩
  · exact Or.inl ⟨2, by simp⟩
  · exact Or.inl ⟨3, by simp⟩
  · exact Or.inr (by simp)

/-! ## Decomposition of the delivery loop into per-batch segments -/

theorem attemptSegs_length (host : Nat → Bool) :
    ∀ batches bIdx n, (attemptSegs host batches bIdx n).length = batches.length := by
  intro batches
  induction batches with
  | nil => intro bIdx n; rfl
  | cons b rest ih => intro bIdx n; simp [attemptSegs, ih]

theorem attemptSegs_get (host : Nat → Bool) :
    ∀ batches bIdx n j (h : j < (attemptSegs host batches bIdx n).length)
      (h2 : j < batches.length),
      ∃ nj, (attemptSegs host batches bIdx n).get ⟨j, h⟩ =
        (attemptLoop host (bIdx + j) (batches.get ⟨j, h2⟩) 3 nj).1 := by
  intro batches
  induction batches with
  | nil => intro bIdx n j h h2; simp at h2
  | cons b rest ih =>
      intro bIdx n j h h2
      cases j with
      | zero => exact ⟨n, rfl⟩
      | succ jj =>
          have h3 : jj < rest.length := by simpa using h2
          have h4 : jj < (attemptSegs host rest (bIdx + 1) (attemptLoop host bIdx b 3 n).2).length := by
            rw [attemptSegs_length]; exact h3
          obtain ⟨nj, hnj⟩ := ih (bIdx + 1) (attemptLoop host bIdx b 3 n).2 jj h4 h3
          refine ⟨nj, ?_⟩
          simpa [attemptSegs, Nat.add_comm, Nat.add_assoc, Nat.add_left_comm] using hnj

theorem createReviewCommentLoop_eq (host : Nat → Bool) (comments : List ReviewComment)
    {B : Nat} (hB : 1 ≤ B) :
    ∀ fuel k bIdx n, comments.length - k < fuel →
      Current.createReviewCommentLoop host comments (some (JSNum.ofNat B)) fuel
        (some (JSNum.ofNat k)) bIdx n =
      some (((attemptSegs host (chunkList B (comments.drop k)) bIdx n).map
        (fun s => s ++ [DEv.waitD])).flatten) := by
  intro fuel
  induction fuel with
  | zero => intro k bIdx n h; omega
  | succ f ih =>
      intro k bIdx n h
      by_cases hk : k < comments.length
      · have hguard : ltLenJS (some (JSNum.ofNat k)) comments.length = true := by
          simp [ltLenJS, ltb_ofNat, hk]
        have hdrop_ne : comments.drop k ≠ [] := by
          intro hc
          have hlen := List.length_drop k comments
          rw [hc] at hlen
          simp at hlen
          omega
        rw [chunkList_cons hB _ hdrop_ne]
        simp only [Current.createReviewCommentLoop, hguard, if_true, addJS_ofNat, jsSlice_ofNat]
        have harg : k + B - k = B := by omega
        rw [harg]
        rw [ih (k + B) (bIdx + 1) _ (by omega)]
        simp [attemptSegs]
      · have hguard : ltLenJS (some (JSNum.ofNat k)) comments.length = false := by
          simp [ltLenJS, ltb_ofNat]
          omega
        have hnil : comments.drop k = [] := List.drop_eq_nil_of_le (by omega)
        rw [hnil, chunkList_nil]
        simp [Current.createReviewCommentLoop, hguard, attemptSegs]

theorem createReviewComment_eq (host : Nat → Bool) (comments : List ReviewComment)
    {B : Nat} (hB : 1 ≤ B) {fuel : Nat} (hfuel : comments.length < fuel) :
    Current.createReviewComment host comments (some (JSNum.ofNat B)) fuel =
      some (((attemptSegs host (chunkList B comments) 0 0).map
        (fun s => s ++ [DEv.waitD])).flatten) := by
  have h := createReviewCommentLoop_eq host comments hB fuel 0 0 0 (by omega)
  simpa [Current.createReviewComment] using h

/-! ## Properties of the decomposed delivery trace -/

theorem flatten_firstAttempts (host : Nat → Bool) :
    ∀ batches bIdx n,
      firstAttempts (((attemptSegs host batches bIdx n).map
        (fun s => s ++ [DEv.waitD])).flatten) = batches := by
  intro batches
  induction batches with
  | nil => intro bIdx n; rfl
  | cons b rest ih =>
      intro bIdx n
      simp only [attemptSegs, List.map_cons, List.flatten_cons]
      have h1 := attemptLoop3_firstAttempts host bIdx b n
      have h2 := ih (bIdx + 1) (attemptLoop host bIdx b 3 n).2
      simp only [firstAttempts] at h1 h2 ⊢
      simp only [List.filterMap_append, h1, h2]
      simp [List.filterMap_cons]

theorem flatten_events_ge (host : Nat → Bool) :
    ∀ batches bIdx n e,
      e ∈ ((attemptSegs host batches bIdx n).map (fun s => s ++ [DEv.waitD])).flatten →
      (∃ j, bIdx ≤ j ∧ evBatchIdx e = some j) ∨ e = .waitD := by
  intro batches
  induction batches with
  | nil => intro bIdx n e he; simp [attemptSegs] at he
  | cons b rest ih =>
      intro bIdx n e he
      simp only [attemptSegs, List.map_cons, List.flatten_cons, List.mem_append,
        List.mem_singleton] at he
      rcases he with (he | rfl) | he
      · rcases attemptLoop3_events host bIdx b n e he with hj | rfl
        · exact Or.inl ⟨bIdx, le_rfl, hj⟩
        · exact Or.inr rfl
      · exact Or.inr rfl
      · rcases ih (bIdx + 1) (attemptLoop host bIdx b 3 n).2 e he with ⟨j, hj1, hj2⟩ | rfl
        · exact Or.inl ⟨j, by omega, hj2⟩
        · exact Or.inr rfl

theorem flatten_submitCount (host : Nat → Bool) :
    ∀ batches bIdx n i,
      submitCount (((attemptSegs host batches bIdx n).map
        (fun s => s ++ [DEv.waitD])).flatten) i ≤ 3 := by
  intro batches
  induction batches with
  | nil => intro bIdx n i; simp [attemptSegs, submitCount]
  | cons b rest ih =>
      intro bIdx n i
      simp only [attemptSegs, List.map_cons, List.flatten_cons]
      rw [submitCount_append, submitCount_append]
      have hwait : submitCount [DEv.waitD] i = 0 := rfl
      rw [hwait]
      by_cases hi : i = bIdx
      · subst hi
        have hz : submitCount (((attemptSegs host rest (i + 1)
            (attemptLoop host i b 3 n).2).map (fun s => s ++ [DEv.waitD])).flatten) i = 0 := by
          apply submitCount_zero_of_ne
          intro e he hev
          rcases flatten_events_ge host rest (i + 1) _ e he with ⟨j, hj1, hj2⟩ | rfl
          · rw [hev] at hj2
            have : i = j := by injection hj2
            omega
          · simp [evBatchIdx] at hev
        rw [hz]
        have := attemptLoop3_submitCount host i b n i
        omega
      · have hz : submitCount (attemptLoop host bIdx b 3 n).1 i = 0 := by
          apply submitCount_zero_of_ne
          intro e he hev
          rcases attemptLoop3_events host bIdx b n e he with hj | rfl
          · rw [hev] at hj
            have : i = bIdx := by injection hj
            exact hi this
          · simp [evBatchIdx] at hev
        rw [hz]
        have := ih (bIdx + 1) (attemptLoop host bIdx b 3 n).2 i
        omega

theorem flatten_batchAttempted (host : Nat → Bool) :
    ∀ batches bIdx n j (h2 : j < batches.length),
      ∃ ok, DEv.submit (bIdx + j) 1 (batches.get ⟨j, h2⟩) ok ∈
        ((attemptSegs host batches bIdx n).map (fun s => s ++ [DEv.waitD])).flatten := by
  intro batches
  induction batches with
  | nil => intro bIdx n j h2; simp at h2
  | cons b rest ih =>
      intro bIdx n j h2
      simp only [attemptSegs, List.map_cons, List.flatten_cons]
      cases j with
      | zero =>
          obtain ⟨ok, rest2, hh⟩ := attemptLoop3_head host bIdx b n
          refine ⟨ok, ?_⟩
          simp only [List.mem_append]
          left
          left
          rw [hh]
          simp
      | succ jj =>
          have h3 : jj < rest.length := by simpa using h2
          obtain ⟨ok, hmem⟩ := ih (bIdx + 1) (attemptLoop host bIdx b 3 n).2 jj h3
          refine ⟨ok, ?_⟩
          simp only [List.mem_append]
          right
          have harith : bIdx + 1 + jj = bIdx + (jj + 1) := by omega
          rw [harith] at hmem
          simpa using hmem

theorem flatten_success_or_drop (host : Nat → Bool) :
    ∀ batches bIdx n j (h2 : j < batches.length),
      (∃ a, DEv.submit (bIdx + j) a (batches.get ⟨j, h2⟩) true ∈
        ((attemptSegs host batches bIdx n).map (fun s => s ++ [DEv.waitD])).flatten)
      ∨ DEv.logDrop (bIdx + j) ∈
        ((attemptSegs host batches bIdx n).map (fun s => s ++ [DEv.waitD])).flatten := by
  intro batches
  induction batches with
  | nil => intro bIdx n j h2; simp at h2
  | cons b rest ih =>
      intro bIdx n j h2
      simp only [attemptSegs, List.map_cons, List.flatten_cons]
      cases j with
      | zero =>
          rcases attemptLoop3_success_or_drop host bIdx b n with ⟨a, hmem⟩ | hmem
          · exact Or.inl ⟨a, by simp only [List.mem_append]; left; left; simpa using hmem⟩
          · exact Or.inr (by simp only [List.mem_append]; left; left; simpa using hmem)
      | succ jj =>
          have h3 : jj < rest.length := by simpa using h2
          have harith : bIdx + (jj + 1) = bIdx + 1 + jj := by omega
          rcases ih (bIdx + 1) (attemptLoop host bIdx b 3 n).2 jj h3 with ⟨a, hmem⟩ | hmem
          · refine Or.inl ⟨a, ?_⟩
            simp only [List.mem_append]
            right
            rw [harith]
            simpa using hmem
          · refine Or.inr ?_
            simp only [List.mem_append]
            right
            rw [harith]
            simpa using hmem

theorem attemptLoop3_failLogged (host : Nat → Bool) (bIdx : Nat) (batch : List ReviewComment)
    (n : Nat) :
    ∀ i a b, DEv.submit i a b false ∈ (attemptLoop host bIdx batch 3 n).1 →
      ∃ pre post, (attemptLoop host bIdx batch 3 n).1 =
        pre ++ DEv.submit i a b false :: DEv.logFail i a :: post := by
  intro i a b hmem
  rcases attemptLoop3_cases host bIdx batch n with ⟨_, he⟩ | ⟨_, _, he⟩ | ⟨_, _, _, he⟩ |
    ⟨_, _, _, he⟩ <;> rw [he] at hmem ⊢ <;> simp at hmem
  · rcases hmem with ⟨rfl, rfl, rfl⟩
    exact ⟨[], _, rfl⟩
  · rcases hmem with ⟨rfl, rfl, rfl⟩ | ⟨rfl, rfl, rfl⟩
    · exact ⟨[], _, rfl⟩
    · exact ⟨[DEv.submit i 1 b false, DEv.logFail i 1, DEv.waitD], _, rfl⟩
  · rcases hmem with ⟨rfl, rfl, rfl⟩ | ⟨rfl, rfl, rfl⟩ | ⟨rfl, rfl, rfl⟩
    · exact ⟨[], _, rfl⟩
    · exact ⟨[DEv.submit i 1 b false, DEv.logFail i 1, DEv.waitD], _, rfl⟩
    · exact ⟨[DEv.submit i 1 b false, DEv.logFail i 1, DEv.waitD,
        DEv.submit i 2 b false, DEv.logFail i 2, DEv.waitD], _, rfl⟩

theorem attemptLoop3_failWindow (host : Nat → Bool) (bIdx : Nat) (batch : List ReviewComment)
    (n : Nat) :
    ∀ i a b, DEv.submit i a b false ∈ (attemptLoop host bIdx batch 3 n).1 → a < 3 →
      ∃ pre post ok2, (attemptLoop host bIdx batch 3 n).1 =
        pre ++ DEv.submit i a b false :: DEv.logFail i a :: DEv.waitD ::
          DEv.submit i (a + 1) b ok2 :: post := by
  intro i a b hmem hlt
  rcases attemptLoop3_cases host bIdx batch n with ⟨_, he⟩ | ⟨_, _, he⟩ | ⟨_, _, _, he⟩ |
    ⟨_, _, _, he⟩ <;> rw [he] at hmem ⊢ <;> simp at hmem
  · rcases hmem with ⟨rfl, rfl, rfl⟩
    exact ⟨[], _, true, rfl⟩
  · rcases hmem with ⟨rfl, rfl, rfl⟩ | ⟨rfl, rfl, rfl⟩
    · exact ⟨[], _, false, rfl⟩
    · exact ⟨[DEv.submit i 1 b false, DEv.logFail i 1, DEv.waitD], _, true, rfl⟩
  · rcases hmem with ⟨rfl, rfl, rfl⟩ | ⟨rfl, rfl, rfl⟩ | ⟨rfl, rfl, rfl⟩
    · exact ⟨[], _, false, rfl⟩
    · exact ⟨[DEv.submit i 1 b false, DEv.logFail i 1, DEv.waitD], _, false, rfl⟩
    · omega

theorem flatten_failLogged (host : Nat → Bool) :
    ∀ batches bIdx n i a b,
      DEv.submit i a b false ∈
        ((attemptSegs host batches bIdx n).map (fun s => s ++ [DEv.waitD])).flatten →
      ∃ pre post,
        ((attemptSegs host batches bIdx n).map (fun s => s ++ [DEv.waitD])).flatten =
          pre ++ DEv.submit i a b false :: DEv.logFail i a :: post := by
  intro batches
  induction batches with
  | nil => intro bIdx n i a b hmem; simp [attemptSegs] at hmem
  | cons bb rest ih =>
      intro bIdx n i a b hmem
      simp only [attemptSegs, List.map_cons, List.flatten_cons] at hmem ⊢
      rcases List.mem_append.mp hmem with hm | hm
      · rcases List.mem_append.mp hm with hm2 | hm2
        · obtain ⟨pre, post, hseg⟩ := attemptLoop3_failLogged host bIdx bb n i a b hm2
          refine ⟨pre, post ++ DEv.waitD ::
            ((attemptSegs host rest (bIdx + 1) (attemptLoop host bIdx bb 3 n).2).map
              (fun s => s ++ [DEv.waitD])).flatten, ?_⟩
          rw [hseg]
          simp
        · simp at hm2
      · obtain ⟨pre, post, hrest⟩ := ih (bIdx + 1) (attemptLoop host bIdx bb 3 n).2 i a b hm
        refine ⟨((attemptLoop host bIdx bb 3 n).1 ++ [DEv.waitD]) ++ pre, post, ?_⟩
        rw [hrest]
        simp

theorem flatten_failWindow (host : Nat → Bool) :
    ∀ batches bIdx n i a b,
      DEv.submit i a b false ∈
        ((attemptSegs host batches bIdx n).map (fun s => s ++ [DEv.waitD])).flatten →
      a < 3 →
      ∃ pre post ok2,
        ((attemptSegs host batches bIdx n).map (fun s => s ++ [DEv.waitD])).flatten =
          pre ++ DEv.submit i a b false :: DEv.logFail i a :: DEv.waitD ::
            DEv.submit i (a + 1) b ok2 :: post := by
  intro batches
  induction batches with
  | nil => intro bIdx n i a b hmem hlt; simp [attemptSegs] at hmem
  | cons bb rest ih =>
      intro bIdx n i a b hmem hlt
      simp only [attemptSegs, List.map_cons, List.flatten_cons] at hmem ⊢
      rcases List.mem_append.mp hmem with hm | hm
      · rcases List.mem_append.mp hm with hm2 | hm2
        · obtain ⟨pre, post, ok2, hseg⟩ := attemptLoop3_failWindow host bIdx bb n i a b hm2 hlt
          refine ⟨pre, post ++ DEv.waitD ::
            ((attemptSegs host rest (bIdx + 1) (attemptLoop host bIdx bb 3 n).2).map
              (fun s => s ++ [DEv.waitD])).flatten, ok2, ?_⟩
          rw [hseg]
          simp
        · simp at hm2
      · obtain ⟨pre, post, ok2, hrest⟩ := ih (bIdx + 1) (attemptLoop host bIdx bb 3 n).2 i a b hm hlt
        refine ⟨((attemptLoop host bIdx bb 3 n).1 ++ [DEv.waitD]) ++ pre, post, ok2, ?_⟩
        rw [hrest]
        simp

theorem flatten_ends_waitD (host : Nat → Bool) :
    ∀ batches bIdx n, batches ≠ [] →
      ∃ pre, ((attemptSegs host batches bIdx n).map (fun s => s ++ [DEv.waitD])).flatten =
        pre ++ [DEv.waitD] := by
  intro batches
  induction batches with
  | nil => intro bIdx n h; exact absurd rfl h
  | cons bb rest ih =>
      intro bIdx n _
      rcases eq_or_ne rest [] with rfl | hrest
      · exact ⟨(attemptLoop host bIdx bb 3 n).1, by simp [attemptSegs]⟩
      · obtain ⟨pre, hp⟩ := ih (bIdx + 1) (attemptLoop host bIdx bb 3 n).2 hrest
        refine ⟨((attemptLoop host bIdx bb 3 n).1 ++ [DEv.waitD]) ++ pre, ?_⟩
        simp only [attemptSegs, List.map_cons, List.flatten_cons]
        rw [hp]
        simp

/-! ## Helper lemmas: the variant comment anchorer -/

theorem strictEqNum_none (a : Option JSNum) : strictEqNum a none = false := by
  cases a <;> rfl

theorem v1_go_props (file : File) (chunk : Chunk) :
    ∀ elems cs logs, V1.createCommentGo file chunk elems = .ok (cs, logs) →
      ∀ c ∈ cs,
        (∃ q, c.line = some q ∧
          ∃ ch ∈ chunk.changes, strictEqNum (lnOrLn2 ch) (some q) = true) ∧
        (∃ e ∈ elems, ∃ s, getProp e "reviewComment" = .ok (.str s) ∧
          c.body = .str (V1.escapeSpecialChars s)) := by
  intro elems
  induction elems with
  | nil =>
      intro cs logs h c hc
      simp [V1.createCommentGo] at h
      obtain ⟨rfl, rfl⟩ := h
      simp at hc
  | cons e rest ih =>
      intro cs logs h c hc
      simp only [V1.createCommentGo] at h
      split at h
      · obtain ⟨h1, e2, he2, s2, hs2, hb2⟩ := ih cs logs h c hc
        exact ⟨h1, e2, List.mem_cons_of_mem _ he2, s2, hs2, hb2⟩
      · next p hfp =>
          split at h
          · simp at h
          · next lnv hln =>
              split at h
              · split at h
                · simp at h
                · next out hrec =>
                    simp only [Except.ok.injEq, Prod.mk.injEq] at h
                    obtain ⟨hcs, _⟩ := h
                    subst hcs
                    obtain ⟨h1, e2, he2, s2, hs2, hb2⟩ := ih out.1 out.2 hrec c hc
                    exact ⟨h1, e2, List.mem_cons_of_mem _ he2, s2, hs2, hb2⟩
              · next chFound hfind =>
                  split at h
                  · simp at h
                  · next rc hrc =>
                      split at h
                      · next s0 =>
                          split at h
                          · simp at h
                          · next out hrec =>
                              simp only [Except.ok.injEq, Prod.mk.injEq] at h
                              obtain ⟨hcs, _⟩ := h
                              subst hcs
                              rcases List.mem_cons.mp hc with rfl | hcm
                              · have hp := List.find?_some hfind
                                have hmem := List.mem_of_find?_eq_some hfind
                                cases hln2 : toNumber lnv with
                                | none =>
                                    rw [hln2, strictEqNum_none] at hp
                                    cases hp
                                | some q =>
                                    rw [hln2] at hp
                                    refine ⟨⟨q, by simp [hln2], chFound, hmem, hp⟩,
                                      e, List.mem_cons_self _ _, s0, hrc, rfl⟩
                              · obtain ⟨h1, e2, he2, s2, hs2, hb2⟩ :=
                                  ih out.1 out.2 hrec c hcm
                                exact ⟨h1, e2, List.mem_cons_of_mem _ he2, s2, hs2, hb2⟩
                      · simp at h

theorem v1_go_dropLog (file : File) (chunk : Chunk) :
    ∀ elems cs logs, V1.createCommentGo file chunk elems = .ok (cs, logs) →
      ∀ e ∈ elems, ∀ p lnv, fileToPath file.«to» = some p →
        getProp e "lineNumber" = .ok lnv →
        (∀ ch ∈ chunk.changes, strictEqNum (lnOrLn2 ch) (toNumber lnv) = false) →
        V1.V1Ev.lineNotFound (toNumber lnv) p ∈ logs := by
  intro elems
  induction elems with
  | nil => intro cs logs h e he; simp at he
  | cons e0 rest ih =>
      intro cs logs h e he p lnv hfp hln hmiss
      simp only [V1.createCommentGo] at h
      split at h
      · next hfp0 =>
          rw [hfp] at hfp0
          cases hfp0
      · next p0 hfp0 =>
          have hpp : p = p0 := by
            rw [hfp] at hfp0
            exact Option.some.inj hfp0
          subst hpp
          rcases List.mem_cons.mp he with rfl | hem
          · split at h
            · next u hln0 =>
                rw [hln] at hln0
                cases hln0
            · next lnv0 hln0 =>
                have hll : lnv = lnv0 := by
                  rw [hln] at hln0
                  exact Except.ok.inj hln0
                subst hll
                split at h
                · split at h
                  · simp at h
                  · next out hrec =>
                      simp only [Except.ok.injEq, Prod.mk.injEq] at h
                      obtain ⟨_, hlogs⟩ := h
                      subst hlogs
                      exact List.mem_cons_self _ _
                · next chFound hfind =>
                    have hp := List.find?_some hfind
                    have hmem := List.mem_of_find?_eq_some hfind
                    rw [hmiss chFound hmem] at hp
                    cases hp
          · split at h
            · simp at h
            · next lnv0 hln0 =>
                split at h
                · split at h
                  · simp at h
                  · next out hrec =>
                      simp only [Except.ok.injEq, Prod.mk.injEq] at h
                      obtain ⟨_, hlogs⟩ := h
                      subst hlogs
                      exact List.mem_cons_of_mem _
                        (ih out.1 out.2 hrec e hem p lnv hfp hln hmiss)
                · split at h
                  · simp at h
                  · next rc hrc =>
                      split at h
                      · next s0 =>
                          split at h
                          · simp at h
                          · next out hrec =>
                              simp only [Except.ok.injEq, Prod.mk.injEq] at h
                              obtain ⟨_, hlogs⟩ := h
                              subst hlogs
                              exact ih out.1 out.2 hrec e hem p lnv hfp hln hmiss
                      · simp at h

/-! ## Helper lemmas: the response validator and the current comment maker -/

theorem getAIResponse_empty (s : String) (h : trimStr s = "") :
    getAIResponse (some s) = (.undefined, []) := by
  have hres : parseJSON "\x7b\x7d" = .ok (.obj []) := by decide
  simp [getAIResponse, h, hres, getProp]

theorem getAIResponse_parseErr (s : String) (h1 : trimStr s ≠ "")
    (h2 : parseJSON (trimStr s) = .error ()) :
    getAIResponse (some s) = (.null, [.aiError]) := by
  simp [getAIResponse, h1, h2]

theorem getAIResponse_falsy (oracle : Nat → Option String)
    (hbad : ∀ k s, oracle k = some s → trimStr s = "" ∨ parseJSON (trimStr s) = .error ())
    (k : Nat) : truthy (getAIResponse (oracle k)).1 = false := by
  cases ho : oracle k with
  | none => rfl
  | some s =>
      rcases hbad k s ho with he | he
      · rw [getAIResponse_empty s he]
        rfl
      · by_cases hemp : trimStr s = ""
        · rw [getAIResponse_empty s hemp]
          rfl
        · rw [getAIResponse_parseErr s hemp he]
          rfl

theorem current_go_length (file : File) (p : String) (hp : fileToPath file.«to» = some p) :
    ∀ elems cs, Current.createCommentGo file elems = .ok cs → cs.length = elems.length := by
  intro elems
  induction elems with
  | nil =>
      intro cs h
      simp [Current.createCommentGo] at h
      subst h
      rfl
  | cons e rest ih =>
      intro cs h
      simp only [Current.createCommentGo] at h
      split at h
      · next hfp0 =>
          rw [hp] at hfp0
          cases hfp0
      · split at h
        · simp at h
        · split at h
          · simp at h
          · split at h
            · simp at h
            · next cs2 hrec =>
                simp only [Except.ok.injEq] at h
                subst h
                simp [ih cs2 hrec]

theorem current_go_path (file : File) :
    ∀ elems cs, Current.createCommentGo file elems = .ok cs →
      ∀ c ∈ cs, fileToPath file.«to» = some c.path := by
  intro elems
  induction elems with
  | nil =>
      intro cs h c hc
      simp [Current.createCommentGo] at h
      subst h
      simp at hc
  | cons e rest ih =>
      intro cs h c hc
      simp only [Current.createCommentGo] at h
      split at h
      · exact ih cs h c hc
      · next p hp =>
          split at h
          · simp at h
          · split at h
            · simp at h
            · split at h
              · simp at h
              · next cs2 hrec =>
                  simp only [Except.ok.injEq] at h
                  subst h
                  rcases List.mem_cons.mp hc with rfl | hcm
                  · exact hp
                  · exact ih cs2 hrec c hcm

/-! ## Claim C2 (corrected) -/

/-- C2 counterexample: a model output whose `reviews` value is the string
`"x"` (truthy, not a list) is not turned into "no candidates": the validator
returns the string itself, which is truthy, and `createComment` applied to it
throws (`flatMap` of a non-array) — the run does not proceed.  And an element
of a `reviews` list lacking a line-number reference is not dropped: it
becomes a comment whose line is `NaN`. -/
theorem c2_counterexample :
    getAIResponse (some "\x7b\"reviews\": \"x\"\x7d") = (.str "x", []) ∧
    truthy (.str "x") = true ∧
    Current.createComment exFile exChunk (.str "x") = .error () ∧
    Current.createComment exFile exChunk (.arr [.obj [("reviewComment", .str "hi")]]) =
      .ok [⟨.str "hi", "file.ts", none⟩] := by
  exact ⟨by decide, rfl, rfl, by decide⟩

/-- C2 (amended): if the parsed JSON object lacks a `reviews` key the
validator yields `undefined`, which is falsy, so no candidates are produced
and the run proceeds.  A truthy non-array `reviews` value, however, is
returned as-is and makes `createComment` throw (the top-level handler then
exits with code 1); and the elements of a `reviews` array are not validated
individually — with a truthy file path every element becomes a comment, so
the output has exactly one comment per element (none are dropped). -/
theorem c2_validation_behavior :
    (∀ (s : String) (fields : List (String × JSValue)),
      trimStr s ≠ "" →
      parseJSON (trimStr s) = .ok (.obj fields) →
      (∀ f ∈ fields, f.1 ≠ "reviews") →
      getAIResponse (some s) = (.undefined, []) ∧ truthy .undefined = false) ∧
    (∀ (s : String) (r : JSValue),
      getAIResponse (some s) = (r, []) → truthy r = true → (∀ el, r ≠ .arr el) →
      ∀ (file : File) (chunk : Chunk), Current.createComment file chunk r = .error ()) ∧
    (∀ (file : File) (p : String), fileToPath file.«to» = some p →
      ∀ (chunk : Chunk) (elems : List JSValue) (cs : List ReviewComment),
        Current.createComment file chunk (.arr elems) = .ok cs →
        cs.length = elems.length) := by
  refine ⟨?_, ?_, ?_⟩
  · intro s fields h1 h2 h3
    have hget : getProp (.obj fields) "reviews" = .ok .undefined := by
      simp only [getProp]
      rw [List.find?_eq_none.mpr]
      intro f hf
      simp only [decide_eq_true_eq]
      exact h3 f (List.mem_reverse.mp hf)
    refine ⟨?_, rfl⟩
    simp [getAIResponse, h1, h2, hget]
  · intro s r _ htru hne file chunk
    cases r with
    | arr el => exact absurd rfl (hne el)
    | undefined => rfl
    | null => rfl
    | bool bb => rfl
    | num qq => rfl
    | str ss => rfl
    | obj ff => rfl
  · intro file p hp chunk elems cs h
    exact current_go_length file p hp elems cs h

/-- Witness for C2: a JSON object without `reviews` yields `undefined`; the
string-valued `reviews` makes `createComment` throw; and a one-element
`reviews` array yields exactly one comment. -/
theorem c2_witness :
    getAIResponse (some "\x7b\"other\": 1\x7d") = (.undefined, []) ∧
    Current.createComment exFile exChunk (.str "x") = .error () ∧
    (∃ cs, Current.createComment exFile exChunk (.arr [exCand "10" "ok"]) = .ok cs ∧
      cs.length = 1) := by
  have h := c2_validation_behavior
  refine ⟨?_, ?_, ?_⟩
  · exact (h.1 "\x7b\"other\": 1\x7d" [("other", .num (some ⟨1, 0⟩))] (by decide) (by decide)
      (by decide)).1
  · exact h.2.1 "\x7b\"reviews\": \"x\"\x7d" (.str "x") (by decide) rfl
      (fun el hel => by cases hel) exFile exChunk
  · have hc : Current.createComment exFile exChunk (.arr [exCand "10" "ok"]) =
        .ok [⟨.str "ok", "file.ts", some ⟨10, 0⟩⟩] := by decide
    exact ⟨_, hc, h.2.2 exFile "file.ts" (by decide) exChunk [exCand "10" "ok"] _ hc⟩

/-! ## Helper lemmas: the per-hunk loop under unusable model output -/

theorem analyzeChunks_bad (oracle : Nat → Option String)
    (hbad : ∀ k s, oracle k = some s → trimStr s = "" ∨ parseJSON (trimStr s) = .error ())
    (file : File) :
    ∀ chunks k, ∃ evs k2, Current.analyzeChunks oracle file chunks k = .ok ([], evs, k2) ∧
      ∀ ch ∈ chunks, PEv.promptBuilt file ch ∈ evs := by
  intro chunks
  induction chunks with
  | nil => intro k; exact ⟨[], k, rfl, by simp⟩
  | cons ch rest ih =>
      intro k
      obtain ⟨evs, k2, hrec, hmem⟩ := ih (k + 1)
      have hfalsy := getAIResponse_falsy oracle hbad k
      refine ⟨PEv.promptBuilt file ch :: (getAIResponse (oracle k)).2 ++ evs, k2, ?_, ?_⟩
      · simp only [Current.analyzeChunks, hfalsy, Bool.false_eq_true, if_false, hrec]
      · intro ch2 hch2
        rcases List.mem_cons.mp hch2 with rfl | hm
        · exact List.mem_cons_self _ _
        · exact List.mem_cons_of_mem _ (List.mem_append_right _ (hmem ch2 hm))

theorem analyzeFiles_bad (oracle : Nat → Option String)
    (hbad : ∀ k s, oracle k = some s → trimStr s = "" ∨ parseJSON (trimStr s) = .error ()) :
    ∀ files k, ∃ evs k2, Current.analyzeFilesGo oracle files k = .ok ([], evs, k2) ∧
      ∀ f ∈ files, f.«to» ≠ some "/dev/null" →
        ∀ ch ∈ f.chunks, PEv.promptBuilt f ch ∈ evs := by
  intro files
  induction files with
  | nil => intro k; exact ⟨[], k, rfl, by simp⟩
  | cons f rest ih =>
      intro k
      by_cases hdel : f.«to» = some "/dev/null"
      · obtain ⟨evs, k2, hrec, hmem⟩ := ih k
        refine ⟨evs, k2, ?_, ?_⟩
        · simp only [Current.analyzeFilesGo, if_pos hdel, hrec]
        · intro f2 hf2 hne ch hch
          rcases List.mem_cons.mp hf2 with rfl | hm
          · exact absurd hdel hne
          · exact hmem f2 hm hne ch hch
      · obtain ⟨evs1, k1, hch1, hmem1⟩ := analyzeChunks_bad oracle hbad f f.chunks k
        obtain ⟨evs, k2, hrec, hmem⟩ := ih k1
        refine ⟨evs1 ++ evs, k2, ?_, ?_⟩
        · simp only [Current.analyzeFilesGo, if_neg hdel, hch1, hrec]
          rfl
        · intro f2 hf2 hne ch hch
          rcases List.mem_cons.mp hf2 with rfl | hm
          · exact List.mem_append_left _ (hmem1 ch hch)
          · exact List.mem_append_right _ (hmem f2 hm hne ch hch)

/-! ## Claim C8 -/

/-- C8: Fail-soft validation.  A model output that is empty after trimming is
treated as `"{}"` and yields the falsy `undefined` (no candidates, nothing
logged as an error); an output that does not parse as JSON yields the falsy
`null` with the failure logged; in both cases `getAIResponse` returns a value
rather than raising, and a whole run whose model outputs are all empty or
unparsable analyzes every file without error, produces zero comments, and
still builds the prompt for every hunk of every non-deleted file (the
pipeline proceeds hunk by hunk). -/
theorem c8_fail_soft :
    (∀ s : String, trimStr s = "" →
      getAIResponse (some s) = (.undefined, []) ∧ truthy .undefined = false) ∧
    (∀ s : String, trimStr s ≠ "" → parseJSON (trimStr s) = .error () →
      getAIResponse (some s) = (.null, [.aiError]) ∧ truthy .null = false) ∧
    (∀ (oracle : Nat → Option String) (files : List File),
      (∀ k s, oracle k = some s → trimStr s = "" ∨ parseJSON (trimStr s) = .error ()) →
      ∃ tr, Current.analyzeCode oracle files = .ok ([], tr) ∧
        ∀ f ∈ files, f.«to» ≠ some "/dev/null" →
          ∀ ch ∈ f.chunks, PEv.promptBuilt f ch ∈ tr) := by
  refine ⟨?_, ?_, ?_⟩
  · intro s h
    exact ⟨getAIResponse_empty s h, rfl⟩
  · intro s h1 h2
    exact ⟨getAIResponse_parseErr s h1 h2, rfl⟩
  · intro oracle files hbad
    obtain ⟨evs, k2, hgo, hmem⟩ := analyzeFiles_bad oracle hbad files 0
    refine ⟨evs, ?_, hmem⟩
    simp only [Current.analyzeCode, hgo]

/-- Witness for C8: the literal model output `"not json"` yields zero
candidates and zero comments for the hunk while its prompt is still built and
the run completes without error. -/
theorem c8_witness :
    getAIResponse (some "not json") = (.null, [.aiError]) ∧
    (∃ tr, Current.analyzeCode (fun _ => some "not json") [exFile] = .ok ([], tr) ∧
      PEv.promptBuilt exFile exChunk ∈ tr) := by
  have h := c8_fail_soft
  refine ⟨(h.2.1 "not json" (by decide) (by decide)).1, ?_⟩
  obtain ⟨tr, h1, h2⟩ := h.2.2 (fun _ => some "not json") [exFile]
    (fun k s hs => Or.inr (by
      have hss : "not json" = s := by injection hs
      rw [← hss]
      decide))
  exact ⟨tr, h1, h2 exFile (by decide) (by decide) exChunk (by decide)⟩

/-! ## Claim C1 (corrected) -/

/-- C1 counterexample: the current `createComment` (src/main.ts) anchors a
candidate citing line 99 in a hunk whose only addressable numbers are 10 and
12 — the comment is emitted at line 99 even though no change line of the hunk
carries that number, and nothing is logged (the function has no log path), so
the claim's anchoring-soundness property is false of the code. -/
theorem c1_counterexample :
    Current.createComment exFile exChunk (.arr [exCand "99" "x"]) =
      .ok [⟨.str "x", "file.ts", some ⟨99, 0⟩⟩] ∧
    (∀ ch ∈ exChunk.changes, strictEqNum (lnOrLn2 ch) (some ⟨99, 0⟩) = false) := by
  exact ⟨by decide, by decide⟩

/-- C1 (amended): anchoring soundness holds of the variant `createComment`
(src/unnamed/part_001), not of the current one.  Whenever the variant
returns comments and logs: every returned comment's line is a number equal
(as a JS number) to the addressable number `change.ln || change.ln2` of some
change line of the source chunk; and a candidate element whose coerced line
number matches no change line of the chunk yields no comment carrying that
line value and its miss is logged with the file path. -/
theorem c1_anchoring_variant (file : File) (chunk : Chunk) (responses : JSValue)
    (cs : List ReviewComment) (logs : List V1.V1Ev)
    (h : V1.createComment file chunk responses = .ok (cs, logs)) :
    (∀ c ∈ cs, ∃ q, c.line = some q ∧
      ∃ ch ∈ chunk.changes, strictEqNum (lnOrLn2 ch) (some q) = true) ∧
    (∀ elems, responses = .arr elems → ∀ e ∈ elems, ∀ p lnv,
      fileToPath file.«to» = some p → getProp e "lineNumber" = .ok lnv →
      (∀ ch ∈ chunk.changes, strictEqNum (lnOrLn2 ch) (toNumber lnv) = false) →
      V1.V1Ev.lineNotFound (toNumber lnv) p ∈ logs ∧
      ∀ c ∈ cs, c.line ≠ toNumber lnv) := by
  have hgo : ∃ elems0, responses = .arr elems0 ∧
      V1.createCommentGo file chunk elems0 = .ok (cs, logs) := by
    cases responses with
    | arr elems0 => exact ⟨elems0, rfl, h⟩
    | undefined => simp [V1.createComment] at h
    | null => simp [V1.createComment] at h
    | bool bb => simp [V1.createComment] at h
    | num qq => simp [V1.createComment] at h
    | str ss => simp [V1.createComment] at h
    | obj ff => simp [V1.createComment] at h
  obtain ⟨elems0, rfl, hgo⟩ := hgo
  constructor
  · intro c hc
    exact (v1_go_props file chunk elems0 cs logs hgo c hc).1
  · intro elems helems e he p lnv hfp hln hmiss
    have helems2 : elems = elems0 := by injection helems.symm
    subst helems2
    refine ⟨v1_go_dropLog file chunk elems cs logs hgo e he p lnv hfp hln hmiss, ?_⟩
    intro c hc hline
    obtain ⟨⟨q, hq, ch, hch, heq⟩, _⟩ := v1_go_props file chunk elems cs logs hgo c hc
    rw [hline] at hq
    rw [hq] at hmiss
    rw [hmiss ch hch] at heq
    cases heq

/-- Witness for C1: on the hunk with lines 10 and 12, candidates citing 10
and 99 yield exactly one anchored comment (line 10) and one logged miss for
99. -/
theorem c1_witness :
    (∀ c ∈ ([⟨.str "ok", "file.ts", some ⟨10, 0⟩⟩] : List ReviewComment),
      ∃ q, c.line = some q ∧
        ∃ ch ∈ exChunk.changes, strictEqNum (lnOrLn2 ch) (some q) = true) ∧
    V1.V1Ev.lineNotFound (some ⟨99, 0⟩) "file.ts" ∈
      [V1.V1Ev.lineNotFound (some ⟨99, 0⟩) "file.ts"] := by
  have h := c1_anchoring_variant exFile exChunk (.arr [exCand "10" "ok", exCand "99" "x"])
    [⟨.str "ok", "file.ts", some ⟨10, 0⟩⟩]
    [V1.V1Ev.lineNotFound (some ⟨99, 0⟩) "file.ts"] (by decide)
  refine ⟨h.1, ?_⟩
  have h2 := h.2 [exCand "10" "ok", exCand "99" "x"] rfl (exCand "99" "x") (by decide)
    "file.ts" (.str "99") (by decide) (by decide) (by decide)
  exact h2.1

/-! ## Claim C3 (corrected) -/

/-- C3 counterexample: the current `createComment` (src/main.ts) copies the
candidate's comment text into the body unchanged — a body containing a raw
newline control character is emitted verbatim and delivered to the host in a
batch as-is, so the claim that every emitted body has been escaped is false
of the code. -/
theorem c3_counterexample :
    Current.createComment exFile exChunk (.arr [exCand "10" "a\nb"]) =
      .ok [⟨.str "a\nb", "file.ts", some ⟨10, 0⟩⟩] ∧
    Char.ofNat 10 ∈ "a\nb".data ∧
    Current.createReviewComment (fun _ => true) [⟨.str "a\nb", "file.ts", some ⟨10, 0⟩⟩]
      (some (JSNum.ofNat 1)) 2 =
      some [.submit 0 1 [⟨.str "a\nb", "file.ts", some ⟨10, 0⟩⟩] true, .logSuccess 0,
        .waitD] := by
  exact ⟨by decide, by decide, by decide⟩

/-- C3 (amended): the escaping holds of the variant `createComment`
(src/unnamed/part_001), not of the current one: every comment the variant
emits carries as its body the candidate's `reviewComment` string passed
through `escapeSpecialChars` (which rewrites backslash, double quote, single
quote, newline, carriage return and tab into escape sequences). -/
theorem c3_escaping_variant (file : File) (chunk : Chunk) (elems : List JSValue)
    (cs : List ReviewComment) (logs : List V1.V1Ev)
    (h : V1.createComment file chunk (.arr elems) = .ok (cs, logs)) :
    ∀ c ∈ cs, ∃ e ∈ elems, ∃ s, getProp e "reviewComment" = .ok (.str s) ∧
      c.body = .str (V1.escapeSpecialChars s) := by
  intro c hc
  exact (v1_go_props file chunk elems cs logs h c hc).2

/-- Witness for C3: a candidate body `"a\nb"` is emitted by the variant with
its newline escaped, as the body `"a\\nb"`. -/
theorem c3_witness :
    ∃ e ∈ [exCand "10" "a\nb"], ∃ s, getProp e "reviewComment" = .ok (.str s) ∧
      (⟨.str "a\\nb", "file.ts", some ⟨10, 0⟩⟩ : ReviewComment).body =
        .str (V1.escapeSpecialChars s) := by
  exact c3_escaping_variant exFile exChunk [exCand "10" "a\nb"]
    [⟨.str "a\\nb", "file.ts", some ⟨10, 0⟩⟩] [] (by decide)
    ⟨.str "a\\nb", "file.ts", some ⟨10, 0⟩⟩ (by decide)

/-! ## Helper lemmas: prompt provenance (for path filtering) -/

theorem getAIResponse_events (content : Option String) :
    ∀ e ∈ (getAIResponse content).2, e = PEv.aiError := by
  cases content with
  | none => intro e he; simpa [getAIResponse] using he
  | some text =>
      intro e he
      simp only [getAIResponse] at he
      split at he
      · simpa using he
      · split at he
        · simpa using he
        · simp at he

theorem current_createComment_path (file : File) (chunk : Chunk) (v : JSValue)
    (cs : List ReviewComment) (h : Current.createComment file chunk v = .ok cs) :
    ∀ c ∈ cs, fileToPath file.«to» = some c.path := by
  cases v with
  | arr elems => exact current_go_path file elems cs h
  | undefined => simp [Current.createComment] at h
  | null => simp [Current.createComment] at h
  | bool bb => simp [Current.createComment] at h
  | num qq => simp [Current.createComment] at h
  | str ss => simp [Current.createComment] at h
  | obj ff => simp [Current.createComment] at h

theorem analyzeChunks_prompts (oracle : Nat → Option String) (file : File) :
    ∀ chunks k cs evs k2,
      Current.analyzeChunks oracle file chunks k = .ok (cs, evs, k2) →
      (∀ f2 ch2, PEv.promptBuilt f2 ch2 ∈ evs → f2 = file ∧ ch2 ∈ chunks) ∧
      (∀ c ∈ cs, fileToPath file.«to» = some c.path ∧
        ∃ ch2 ∈ chunks, PEv.promptBuilt file ch2 ∈ evs) := by
  intro chunks
  induction chunks with
  | nil =>
      intro k cs evs k2 h
      simp [Current.analyzeChunks] at h
      obtain ⟨rfl, rfl, rfl⟩ := h
      exact ⟨by simp, by simp⟩
  | cons ch rest ih =>
      intro k cs evs k2 h
      simp only [Current.analyzeChunks] at h
      split at h
      · split at h
        · simp at h
        · next newComments hcc =>
            split at h
            · simp at h
            · next out hrec =>
                simp only [Except.ok.injEq, Prod.mk.injEq] at h
                obtain ⟨hcs, hevs, _⟩ := h
                subst hcs
                subst hevs
                obtain ⟨ihp, ihc⟩ := ih (k + 1) out.1 out.2.1 out.2.2 (by
                  rw [hrec])
                constructor
                · intro f2 ch2 hmem
                  rcases List.mem_cons.mp hmem with heq | hmem2
                  · refine ⟨by injection heq, ?_⟩
                    have : ch2 = ch := by injection heq
                    rw [this]
                    exact List.mem_cons_self _ _
                  · rcases List.mem_append.mp hmem2 with hmem3 | hmem3
                    · have := getAIResponse_events (oracle k) _ hmem3
                      cases this
                    · obtain ⟨hf, hch⟩ := ihp f2 ch2 hmem3
                      exact ⟨hf, List.mem_cons_of_mem _ hch⟩
                · intro c hc
                  rcases List.mem_append.mp hc with hcm | hcm
                  · exact ⟨current_createComment_path file ch _ newComments hcc c hcm,
                      ch, List.mem_cons_self _ _, List.mem_cons_self _ _⟩
                  · obtain ⟨hpath, ch2, hch2, hev⟩ := ihc c hcm
                    exact ⟨hpath, ch2, List.mem_cons_of_mem _ hch2,
                      List.mem_cons_of_mem _ (List.mem_append_right _ hev)⟩
      · split at h
        · simp at h
        · next out hrec =>
            simp only [Except.ok.injEq, Prod.mk.injEq] at h
            obtain ⟨hcs, hevs, _⟩ := h
            subst hcs
            subst hevs
            obtain ⟨ihp, ihc⟩ := ih (k + 1) out.1 out.2.1 out.2.2 (by rw [hrec])
            constructor
            · intro f2 ch2 hmem
              rcases List.mem_cons.mp hmem with heq | hmem2
              · refine ⟨by injection heq, ?_⟩
                have : ch2 = ch := by injection heq
                rw [this]
                exact List.mem_cons_self _ _
              · rcases List.mem_append.mp hmem2 with hmem3 | hmem3
                · have := getAIResponse_events (oracle k) _ hmem3
                  cases this
                · obtain ⟨hf, hch⟩ := ihp f2 ch2 hmem3
                  exact ⟨hf, List.mem_cons_of_mem _ hch⟩
            · intro c hc
              obtain ⟨hpath, ch2, hch2, hev⟩ := ihc c hc
              exact ⟨hpath, ch2, List.mem_cons_of_mem _ hch2,
                List.mem_cons_of_mem _ (List.mem_append_right _ hev)⟩

theorem analyzeFiles_prompts (oracle : Nat → Option String) :
    ∀ files k cs evs k2,
      Current.analyzeFilesGo oracle files k = .ok (cs, evs, k2) →
      (∀ f2 ch2, PEv.promptBuilt f2 ch2 ∈ evs →
        f2 ∈ files ∧ f2.«to» ≠ some "/dev/null" ∧ ch2 ∈ f2.chunks) ∧
      (∀ c ∈ cs, ∃ f2 ∈ files, fileToPath f2.«to» = some c.path ∧
        ∃ ch2, PEv.promptBuilt f2 ch2 ∈ evs) := by
  intro files
  induction files with
  | nil =>
      intro k cs evs k2 h
      simp [Current.analyzeFilesGo] at h
      obtain ⟨rfl, rfl, rfl⟩ := h
      exact ⟨by simp, by simp⟩
  | cons f rest ih =>
      intro k cs evs k2 h
      simp only [Current.analyzeFilesGo] at h
      split at h
      · next hdel =>
          obtain ⟨ihp, ihc⟩ := ih k cs evs k2 h
          constructor
          · intro f2 ch2 hmem
            obtain ⟨hf, hne, hch⟩ := ihp f2 ch2 hmem
            exact ⟨List.mem_cons_of_mem _ hf, hne, hch⟩
          · intro c hc
            obtain ⟨f2, hf2, hrest⟩ := ihc c hc
            exact ⟨f2, List.mem_cons_of_mem _ hf2, hrest⟩
      · next hdel =>
          split at h
          · simp at h
          · next out1 hch1 =>
              split at h
              · simp at h
              · next out2 hrec =>
                  simp only [Except.ok.injEq, Prod.mk.injEq] at h
                  obtain ⟨hcs, hevs, _⟩ := h
                  subst hcs
                  subst hevs
                  obtain ⟨hp1, hc1⟩ := analyzeChunks_prompts oracle f f.chunks k
                    out1.1 out1.2.1 out1.2.2 (by rw [hch1])
                  obtain ⟨hp2, hc2⟩ := ih out1.2.2 out2.1 out2.2.1 out2.2.2 (by rw [hrec])
                  constructor
                  · intro f2 ch2 hmem
                    rcases List.mem_append.mp hmem with hm | hm
                    · obtain ⟨rfl, hch⟩ := hp1 f2 ch2 hm
                      exact ⟨List.mem_cons_self _ _, hdel, hch⟩
                    · obtain ⟨hf, hne, hch⟩ := hp2 f2 ch2 hm
                      exact ⟨List.mem_cons_of_mem _ hf, hne, hch⟩
                  · intro c hc
                    rcases List.mem_append.mp hc with hm | hm
                    · obtain ⟨hpath, ch2, _, hev⟩ := hc1 c hm
                      exact ⟨f, List.mem_cons_self _ _, hpath, ch2,
                        List.mem_append_left _ hev⟩
                    · obtain ⟨f2, hf2, hpath, ch2, hev⟩ := hc2 c hm
                      exact ⟨f2, List.mem_cons_of_mem _ hf2, hpath, ch2,
                        List.mem_append_right _ hev⟩

/-! ## Claim C9 -/

/-- C9: Path filtering and deleted-file exclusion.  When `analyzeCode` runs
on the include-filtered diff (as `main` invokes it): every prompt that is
ever built belongs to a file that matched at least one configured include
pattern (so a file matching none never reaches the Prompt Builder), is not
the deletion sentinel `"/dev/null"`, came from the parsed diff, and is for
one of that file's own hunks; and every comment produced carries the path of
some file that was prompted. -/
theorem c9_path_filtering (matcher : String → String → Bool) (patterns : List String)
    (files : List File) (oracle : Nat → Option String)
    (cs : List ReviewComment) (tr : List PEv)
    (h : Current.analyzeCode oracle (filterFiles matcher patterns files) = .ok (cs, tr)) :
    (∀ f ch, PEv.promptBuilt f ch ∈ tr →
      patterns.any (fun p => matcher (f.«to».getD "") p) = true ∧
      f.«to» ≠ some "/dev/null" ∧ f ∈ files ∧ ch ∈ f.chunks) ∧
    (∀ c ∈ cs, ∃ f, (∃ ch, PEv.promptBuilt f ch ∈ tr) ∧
      fileToPath f.«to» = some c.path) := by
  have hgo : ∃ k2, Current.analyzeFilesGo oracle (filterFiles matcher patterns files) 0 =
      .ok (cs, tr, k2) := by
    simp only [Current.analyzeCode] at h
    split at h
    · simp at h
    · next out hout =>
        simp only [Except.ok.injEq, Prod.mk.injEq] at h
        obtain ⟨hcs, htr⟩ := h
        subst hcs
        subst htr
        exact ⟨out.2.2, by rw [hout]⟩
  obtain ⟨k2, hgo⟩ := hgo
  obtain ⟨hp, hc⟩ := analyzeFiles_prompts oracle _ 0 cs tr k2 hgo
  constructor
  · intro f ch hmem
    obtain ⟨hf, hne, hch⟩ := hp f ch hmem
    obtain ⟨hfin, hmatch⟩ := List.mem_filter.mp hf
    exact ⟨hmatch, hne, hfin, hch⟩
  · intro c hcm
    obtain ⟨f2, _, hpath, ch2, hev⟩ := hc c hcm
    exact ⟨f2, ⟨ch2, hev⟩, hpath⟩

/-- Witness for C9: in the concrete one-file run, the one prompt built is for
the matching, non-deleted file and its hunk. -/
theorem c9_witness :
    (["*.ts"].any (fun p => (fun s pat => pat = "*.ts" && s = "file.ts")
      ((exFile.«to»).getD "") p) = true) ∧
    exFile.«to» ≠ some "/dev/null" ∧ exFile ∈ [exFile] ∧ exChunk ∈ exFile.chunks := by
  have h := c9_path_filtering (fun s pat => pat = "*.ts" && s = "file.ts") ["*.ts"] [exFile]
    (fun _ => some "\x7b\"reviews\": [\x7b\"lineNumber\": \"99\", \"reviewComment\": \"x\"\x7d]\x7d")
    [⟨.str "x", "file.ts", some ⟨99, 0⟩⟩] [PEv.promptBuilt exFile exChunk] (by decide)
  exact h.1 exFile exChunk (by decide)

/-! ## Claim C4 (corrected) -/

/-- C4 counterexample: a run whose event action is `"closed"` (neither
`"opened"` nor `"synchronize"`) logs and returns normally with exit code 0,
and a run with an empty diff likewise exits 0 after logging — not with a
non-zero status as the claim states. -/
theorem c4_counterexample :
    Current.main envClosed 1 = some (0, [MEv.logUnsupported]) ∧
    Current.main envEmptyDiff 1 = some (0, [MEv.logNoDiff]) := by
  exact ⟨by decide, by decide⟩

/-- C4 (amended): an unreadable event payload aborts the run with exit code 1
after logging; but an unsupported event action and an empty diff merely log
and return normally with exit code 0.  Runs in which only recoverable
conditions occur still exit 0: whenever the pipeline analyzes the filtered
diff without a throw, the run exits 0 for every host behaviour (delivery
failures and exhausted batches included), provided the configured batch size
is a positive integer so the delivery loop terminates. -/
theorem c4_exit_codes :
    (∀ (env : Env) (fuel : Nat), parseJSON env.eventText = .error () →
      Current.main env fuel = some (1, [.logError])) ∧
    (∀ (env : Env) (fuel : Nat) (ev act : JSValue),
      Current.getPRDetails env = .ok () →
      parseJSON env.eventText = .ok ev →
      getProp ev "action" = .ok act →
      act ≠ .str "opened" → act ≠ .str "synchronize" →
      Current.main env fuel = some (0, [.logUnsupported])) ∧
    (∀ (env : Env) (fuel : Nat) (ev act : JSValue),
      Current.getPRDetails env = .ok () →
      parseJSON env.eventText = .ok ev →
      getProp ev "action" = .ok act →
      act = .str "opened" → env.prDiff = .ok "" →
      Current.main env fuel = some (0, [.logNoDiff])) ∧
    (∀ (env : Env) (fuel : Nat) (ev act : JSValue) (d : String)
      (cs : List ReviewComment) (tr : List PEv) (B : Nat),
      Current.getPRDetails env = .ok () →
      parseJSON env.eventText = .ok ev →
      getProp ev "action" = .ok act →
      act = .str "opened" → env.prDiff = .ok d → d ≠ "" →
      Current.analyzeCode env.oracle (filterFiles env.matcher
        (includePatternsOf env.includeInput) (env.parseDiffFn d)) = .ok (cs, tr) →
      env.batchSize = some (JSNum.ofNat B) → 1 ≤ B → cs.length < fuel →
      ∃ evs, Current.main env fuel = some (0, evs)) := by
  refine ⟨?_, ?_, ?_, ?_⟩
  · intro env fuel h
    have hpr : Current.getPRDetails env = .error () := by
      simp only [Current.getPRDetails, h]
    simp only [Current.main, hpr]
  · intro env fuel ev act hpr hparse hact hne1 hne2
    simp only [Current.main, hpr, hparse, hact]
    rw [if_neg hne1, if_neg hne2]
  · intro env fuel ev act hpr hparse hact hopened hdiff
    simp only [Current.main, hpr, hparse, hact]
    rw [if_pos hopened, hdiff]
    simp [Current.mainAfterDiff]
  · intro env fuel ev act d cs tr B hpr hparse hact hopened hdiff hdne hana hB hBpos hfuel
    simp only [Current.main, hpr, hparse, hact]
    rw [if_pos hopened, hdiff]
    simp only [Current.mainAfterDiff, if_neg hdne, hana]
    by_cases hcs : 0 < cs.length
    · rw [if_pos hcs, hB, createReviewComment_eq env.host cs hBpos hfuel]
      exact ⟨[], rfl⟩
    · rw [if_neg hcs]
      exact ⟨[], rfl⟩

/-- Witness for C4: the unreadable payload `"oops"` exits 1, and the full
concrete opened-PR run (one file, one comment, batch size 5) exits 0 even
though its model cited a line absent from the hunk. -/
theorem c4_witness :
    Current.main envBadEvent 1 = some (1, [MEv.logError]) ∧
    (∃ evs, Current.main envFull 2 = some (0, evs)) := by
  have h := c4_exit_codes
  refine ⟨h.1 envBadEvent 1 (by decide), ?_⟩
  exact h.2.2.2 envFull 2
    (.obj [("repository", .obj [("owner", .obj [("login", .str "o")]),
      ("name", .str "r")]), ("number", .num (some ⟨1, 0⟩)), ("action", .str "opened")])
    (.str "opened") "diff" [⟨.str "x", "file.ts", some ⟨99, 0⟩⟩]
    [PEv.promptBuilt exFile exChunk] 5
    (by decide) (by decide) (by decide) rfl rfl (by decide) (by decide) rfl
    (by decide) (by decide)

/-! ## Claim C5 -/

/-- C5: Batch partition.  For every comment list of length `M` and integer
batch size `B > 0`, the `createReviewComment` loop of src/main.ts terminates
and its trace submits exactly the batches `chunkList B comments` (read off
the first-attempt submissions, in order): there are `⌈M/B⌉ = (M + B - 1) / B`
of them, each has size at most `B`, all but possibly the last have size
exactly `B`, their concatenation restores the original comment list, and when
`M = 0` the trace is empty, so no host request is made. -/
theorem c5_batch_partition (host : Nat → Bool) (comments : List ReviewComment) (B fuel : Nat)
    (hB : 1 ≤ B) (hfuel : comments.length < fuel) :
    ∃ tr, Current.createReviewComment host comments (some (JSNum.ofNat B)) fuel = some tr ∧
      firstAttempts tr = chunkList B comments ∧
      (chunkList B comments).length = (comments.length + B - 1) / B ∧
      (∀ b ∈ chunkList B comments, b.length ≤ B) ∧
      (∀ b ∈ (chunkList B comments).dropLast, b.length = B) ∧
      (chunkList B comments).flatten = comments ∧
      (comments = [] → tr = []) := by
  refine ⟨_, createReviewComment_eq host comments hB hfuel, ?_, ?_, ?_, ?_, ?_, ?_⟩
  · exact flatten_firstAttempts host _ 0 0
  · exact chunkList_length hB comments
  · exact chunkList_mem_length hB comments
  · exact chunkList_dropLast_length hB comments
  · exact chunkList_flatten hB comments
  · intro h
    subst h
    simp [chunkList_nil, attemptSegs]

/-- Witness for C5: three comments with `B = 2` partition into two batches. -/
theorem c5_witness :
    ∃ tr, Current.createReviewComment (fun _ => true) [exRC1, exRC2, exRC3]
        (some (JSNum.ofNat 2)) 4 = some tr ∧
      firstAttempts tr = chunkList 2 [exRC1, exRC2, exRC3] ∧
      (chunkList 2 [exRC1, exRC2, exRC3]).flatten = [exRC1, exRC2, exRC3] := by
  obtain ⟨tr, h1, h2, _, _, _, h6, _⟩ :=
    c5_batch_partition (fun _ => true) [exRC1, exRC2, exRC3] 2 4 (by decide) (by decide)
  exact ⟨tr, h1, h2, h6⟩

/-! ## Claim C6 -/

/-- C6: Retry exhaustion isolation.  In every terminating delivery trace of
`createReviewComment` (batch size `B ≥ 1`): every batch index receives at
most 3 = R submission attempts; every failed attempt is immediately followed
by its failure log, and when attempts remain (attempt number < 3) by the
delay and a retry of the same batch (the very next submission is attempt
`a + 1` of the same batch content); every batch of the partition is attempted
at least once (so a batch exhausting its budget never prevents the next batch
from being attempted); and every batch either has a successful attempt or its
drop is logged. -/
theorem c6_retry_isolation (host : Nat → Bool) (comments : List ReviewComment) (B fuel : Nat)
    (hB : 1 ≤ B) (hfuel : comments.length < fuel) (tr : List DEv)
    (htr : Current.createReviewComment host comments (some (JSNum.ofNat B)) fuel = some tr) :
    (∀ i, submitCount tr i ≤ 3) ∧
    (∀ i a b, DEv.submit i a b false ∈ tr →
      ∃ pre post, tr = pre ++ DEv.submit i a b false :: DEv.logFail i a :: post) ∧
    (∀ i a b, DEv.submit i a b false ∈ tr → a < 3 →
      ∃ pre post ok2, tr = pre ++ DEv.submit i a b false :: DEv.logFail i a :: DEv.waitD ::
        DEv.submit i (a + 1) b ok2 :: post) ∧
    (∀ j (h : j < (chunkList B comments).length),
      ∃ ok, DEv.submit j 1 ((chunkList B comments).get ⟨j, h⟩) ok ∈ tr) ∧
    (∀ j (h : j < (chunkList B comments).length),
      (∃ a, DEv.submit j a ((chunkList B comments).get ⟨j, h⟩) true ∈ tr) ∨
        DEv.logDrop j ∈ tr) := by
  have he := createReviewComment_eq host comments hB hfuel
  rw [htr] at he
  have htr2 : tr = ((attemptSegs host (chunkList B comments) 0 0).map
      (fun s => s ++ [DEv.waitD])).flatten := by
    injection he
  subst htr2
  refine ⟨fun i => flatten_submitCount host _ 0 0 i,
    fun i a b hmem => flatten_failLogged host _ 0 0 i a b hmem,
    fun i a b hmem hlt => flatten_failWindow host _ 0 0 i a b hmem hlt, ?_, ?_⟩
  · intro j h
    have := flatten_batchAttempted host (chunkList B comments) 0 0 j h
    simpa using this
  · intro j h
    have := flatten_success_or_drop host (chunkList B comments) 0 0 j h
    simpa using this

/-- Witness for C6: with `exHost3`, batch 0 of `[exRC1], [exRC2]` fails all
three attempts, each failure is logged, the first failure is followed by a
wait and attempt 2, and batch 1 is still attempted. -/
theorem c6_witness :
    submitCount exTrace6 0 ≤ 3 ∧
    (∃ pre post ok2, exTrace6 = pre ++ DEv.submit 0 1 [exRC1] false :: DEv.logFail 0 1 ::
      DEv.waitD :: DEv.submit 0 2 [exRC1] ok2 :: post) := by
  have h := c6_retry_isolation exHost3 [exRC1, exRC2] 1 3 (by decide) (by decide)
    exTrace6 (by decide)
  exact ⟨h.1 0, h.2.2.1 0 1 [exRC1] (by decide) (by decide)⟩

/-! ## Claim C7 -/

/-- C7: Pacing.  Every terminating delivery trace of `createReviewComment`
(batch size `B ≥ 1`) decomposes into one segment per batch, each segment
holding exactly the attempt events of its batch (its events carry that batch
index, apart from its internal retry waits) and starting with that batch's
first submission, with one `waitD` delay inserted after every segment — so a
delay of `D` elapses between the end of batch `j`'s attempts and the first
submission of batch `j + 1`, and the same trailing delay also follows the
last batch (the trace ends in `waitD` whenever there is at least one
batch). -/
theorem c7_pacing (host : Nat → Bool) (comments : List ReviewComment) (B fuel : Nat)
    (hB : 1 ≤ B) (hfuel : comments.length < fuel) :
    ∃ (segs : List (List DEv)) (tr : List DEv),
      Current.createReviewComment host comments (some (JSNum.ofNat B)) fuel = some tr ∧
      tr = (segs.map (fun s => s ++ [DEv.waitD])).flatten ∧
      segs.length = (chunkList B comments).length ∧
      (∀ j (h : j < segs.length) (h2 : j < (chunkList B comments).length),
        ∃ ok rest, segs.get ⟨j, h⟩ =
          DEv.submit j 1 ((chunkList B comments).get ⟨j, h2⟩) ok :: rest) ∧
      (∀ j (h : j < segs.length), ∀ e ∈ segs.get ⟨j, h⟩,
        evBatchIdx e = some j ∨ e = DEv.waitD) ∧
      (comments ≠ [] → ∃ pre, tr = pre ++ [DEv.waitD]) := by
  refine ⟨attemptSegs host (chunkList B comments) 0 0, _,
    createReviewComment_eq host comments hB hfuel, rfl,
    attemptSegs_length host _ 0 0, ?_, ?_, ?_⟩
  · intro j h h2
    obtain ⟨nj, hnj⟩ := attemptSegs_get host (chunkList B comments) 0 0 j h h2
    rw [hnj]
    have := attemptLoop3_head host (0 + j) ((chunkList B comments).get ⟨j, h2⟩) nj
    simpa using this
  · intro j h e he
    obtain ⟨nj, hnj⟩ := attemptSegs_get host (chunkList B comments) 0 0 j h
      (by rw [← attemptSegs_length host (chunkList B comments) 0 0]; exact h)
    rw [hnj] at he
    have := attemptLoop3_events host (0 + j) _ nj e he
    simpa using this
  · intro hne
    exact flatten_ends_waitD host _ 0 0 (chunkList_ne_nil hB comments hne)

/-- Witness for C7: the concrete two-batch delivery under `exHost3` ends with
the trailing inter-batch delay. -/
theorem c7_witness : ∃ pre, exTrace6 = pre ++ [DEv.waitD] := by
  obtain ⟨segs, tr, h1, h2, h3, h4, h5, h6⟩ :=
    c7_pacing exHost3 [exRC1, exRC2] 1 3 (by decide) (by decide)
  have hc : Current.createReviewComment exHost3 [exRC1, exRC2] (some (JSNum.ofNat 1)) 3 =
      some exTrace6 := by decide
  rw [hc] at h1
  have htr : exTrace6 = tr := by injection h1
  rw [htr]
  exact h6 (by decide)

/-! ## Claim C10 -/

/-- C10: Termination of the delivery loop depends on the batch-size
precondition.  For every finite comment list, `createReviewComment`
terminates (the fuel-indexed model returns `some` once the fuel exceeds the
list length) when `BATCH_SIZE` is a positive integer.  When `BATCH_SIZE = 0`
and the comment list is non-empty, the loop index never advances
(`0 + 0 = 0` in the JS index arithmetic) and the loop does not terminate: the
model returns `none` for every fuel.  When `BATCH_SIZE` is `NaN`
(non-numeric input), the loop submits a single empty slice — the trace is one
retry segment for the empty batch followed by the trailing delay, and its
submitted batch list is `[[]]` — rather than the partition the design
document specifies. -/
theorem c10_termination :
    (∀ (host : Nat → Bool) (comments : List ReviewComment) (B fuel : Nat), 1 ≤ B →
      comments.length < fuel →
      ∃ tr, Current.createReviewComment host comments (some (JSNum.ofNat B)) fuel = some tr) ∧
    (∀ (host : Nat → Bool) (comments : List ReviewComment), comments ≠ [] →
      addJS (some (JSNum.ofNat 0)) (some (JSNum.ofNat 0)) = some (JSNum.ofNat 0) ∧
      ∀ fuel, Current.createReviewComment host comments (some (JSNum.ofNat 0)) fuel = none) ∧
    (∀ (host : Nat → Bool) (comments : List ReviewComment), comments ≠ [] →
      ∀ fuel, 2 ≤ fuel →
      ∃ tr, Current.createReviewComment host comments none fuel = some tr ∧
        firstAttempts tr = [[]]) := by
  refine ⟨?_, ?_, ?_⟩
  · intro host comments B fuel hB hfuel
    exact ⟨_, createReviewComment_eq host comments hB hfuel⟩
  · intro host comments hne
    have hlen : 0 < comments.length := List.length_pos.mpr hne
    refine ⟨by simp [addJS_ofNat], ?_⟩
    have aux : ∀ fuel bIdx n,
        Current.createReviewCommentLoop host comments (some (JSNum.ofNat 0)) fuel
          (some (JSNum.ofNat 0)) bIdx n = none := by
      intro fuel
      induction fuel with
      | zero => intro bIdx n; rfl
      | succ f ih =>
          intro bIdx n
          have hguard : ltLenJS (some (JSNum.ofNat 0)) comments.length = true := by
            simp [ltLenJS, ltb_ofNat, hlen]
          simp only [Current.createReviewCommentLoop, hguard, if_true, addJS_ofNat,
            Nat.add_zero, ih]
    intro fuel
    exact aux fuel 0 0
  · intro host comments hne fuel hfuel
    have hlen : 0 < comments.length := List.length_pos.mpr hne
    obtain ⟨f, rfl⟩ : ∃ f, fuel = f + 2 := ⟨fuel - 2, by omega⟩
    have hguard : ltLenJS (some (JSNum.ofNat 0)) comments.length = true := by
      simp [ltLenJS, ltb_ofNat, hlen]
    have hzero : jsSliceIdx comments.length none = 0 := rfl
    have hbatch : jsSlice comments (some (JSNum.ofNat 0))
        (addJS (some (JSNum.ofNat 0)) none) = [] := by
      simp [addJS, jsSlice, jsSliceIdx_ofNat, hzero]
    have hstep2 : ∀ n bIdx,
        Current.createReviewCommentLoop host comments none (f + 1) none bIdx n = some [] := by
      intro n bIdx
      rfl
    refine ⟨(attemptLoop host 0 [] 3 0).1 ++ [DEv.waitD], ?_, ?_⟩
    · show Current.createReviewCommentLoop host comments none (f + 1 + 1)
        (some (JSNum.ofNat 0)) 0 0 = _
      simp only [Current.createReviewCommentLoop, hguard, if_true, hbatch]
      have haddnan : addJS (some (JSNum.ofNat 0)) none = none := rfl
      have hlt : ltLenJS none comments.length = false := rfl
      simp [haddnan, hlt]
    · rw [show firstAttempts ((attemptLoop host 0 [] 3 0).1 ++ [DEv.waitD]) =
        firstAttempts (attemptLoop host 0 [] 3 0).1 ++ firstAttempts [DEv.waitD] from by
          simp [firstAttempts, List.filterMap_append]]
      rw [attemptLoop3_firstAttempts]
      rfl

/-- Witness for C10: with one comment, `B = 1` terminates at fuel 2,
`B = 0` returns `none` even with fuel 50, and `B = NaN` submits one empty
slice. -/
theorem c10_witness :
    (∃ tr, Current.createReviewComment (fun _ => true) [exRC1] (some (JSNum.ofNat 1)) 2 =
      some tr) ∧
    Current.createReviewComment (fun _ => true) [exRC1] (some (JSNum.ofNat 0)) 50 = none ∧
    (∃ tr, Current.createReviewComment (fun _ => true) [exRC1] none 2 = some tr ∧
      firstAttempts tr = [[]]) := by
  have h := c10_termination
  refine ⟨?_, ?_, ?_⟩
  · exact h.1 (fun _ => true) [exRC1] 1 2 (by decide) (by decide)
  · exact (h.2.1 (fun _ => true) [exRC1] (by decide)).2 50
  · exact h.2.2 (fun _ => true) [exRC1] (by decide) 2 (by decide)

end AICodeReview
